import Mathlib

/-!
Verification development for MiniVecDB: a vector store (`VectorStorage`) plus an
inverted-file index (`IVFIndex`) over it.

Modelling conventions (shallow embedding of the Python source):

* numpy float scalars are idealized as `ℚ`; `np.linalg.norm v = sqrt (v · v)` is
  modelled with an abstract square-root function `sq : ℚ → ℚ` passed as a
  parameter, since `ℚ` has no square root and no claim below depends on any
  analytic property of the square root;
* Python dicts are insertion-ordered association lists (`List (key × value)`);
  reachable dict states have pairwise-distinct keys;
* Python exceptions are `Option`/`Except` failures; a function raises iff the
  model returns `none`/`.error`;
* `list.sort()` / `sorted(key=...)` are stable sorts, modelled by the stable
  insertion sort `sortBy`;
* the external K-means collaborator (`FastKMeans` behind `run_kmeans`) is a
  function parameter `rk : List Vec → List Vec × List Nat` returning centroids
  and per-vector cluster assignments.
-/

namespace MiniVecDB

/-- A vector: numpy 1-d float array idealized over `ℚ`. -/
abbrev Vec := List ℚ

/-- Elementwise `np.dot` for equal-length vectors (`zipWith` mirrors numpy's
elementwise pairing; the store enforces equal dimensions). -/
def dot (a b : Vec) : ℚ := (List.zipWith (fun x y => x * y) a b).sum

/-- Elementwise vector difference `a - b`. -/
def vsub (a b : Vec) : Vec := List.zipWith (fun x y => x - y) a b

/-- The `1e-8` guard constant from `vers`. -/
def versEps : ℚ := 1 / 100000000

/-- Source `vers(a, b) = 1.0 - np.dot(a, b) / (np.linalg.norm(a) * np.linalg.norm(b) + 1e-8)`,
with `np.linalg.norm v` modelled as `sq (dot v v)`. -/
def vers (sq : ℚ → ℚ) (a b : Vec) : ℚ :=
  1 - dot a b / (sq (dot a a) * sq (dot b b) + versEps)

/-- Source `euclidean(a, b) = np.linalg.norm(a - b)`. -/
def euclidean (sq : ℚ → ℚ) (a b : Vec) : ℚ := sq (dot (vsub a b) (vsub a b))

/-- Source `neg_dot(a, b) = -np.dot(a, b)`. -/
def neg_dot (a b : Vec) : ℚ := -(dot a b)

/-- The keys of the source's `func_map` dictionary: `'cosine'`, `'euclidean'`, `'dot'`. -/
inductive Metric
  | cosine
  | euclidean
  | dot
deriving DecidableEq, Repr

/-- Source `func_map`: metric name to distance function. -/
def func_map (sq : ℚ → ℚ) : Metric → Vec → Vec → ℚ
  | .cosine => vers sq
  | .euclidean => euclidean sq
  | .dot => neg_dot

/-! ## A stable sort, modelling Python's `list.sort()` / `sorted(...)`.

Python's sort is stable: elements comparing equal keep their original relative
order. Stable sorting by a total transitive boolean comparison has a unique
result, so the stable insertion sort below is extensionally the sort Python
computes. -/

/-- Insert `x` after every element `y` of an already-sorted list with `le y x`. -/
def insortBy (le : α → α → Bool) (x : α) : List α → List α
  | [] => [x]
  | y :: ys => if le y x then y :: insortBy le x ys else x :: y :: ys

/-- Stable insertion sort: fold the input left-to-right into a sorted accumulator. -/
def sortBy (le : α → α → Bool) (l : List α) : List α :=
  l.foldl (fun acc x => insortBy le x acc) []

/-- The list is sorted with respect to the boolean comparison `le`. -/
def SortedB (le : α → α → Bool) (l : List α) : Prop :=
  List.Pairwise (fun a b => le a b = true) l

theorem insortBy_perm (le : α → α → Bool) (x : α) :
    ∀ l : List α, (insortBy le x l).Perm (x :: l) := by
  intro l
  induction l with
  | nil => simp [insortBy]
  | cons y ys ih =>
    simp only [insortBy]
    by_cases h : le y x = true
    · simp only [h, if_true]
      exact ((ih.cons y).trans (List.Perm.swap x y ys))
    · simp [h]

theorem sortBy_perm (le : α → α → Bool) (l : List α) : (sortBy le l).Perm l := by
  suffices h : ∀ (l : List α) (acc : List α),
      (l.foldl (fun acc x => insortBy le x acc) acc).Perm (acc ++ l) by
    simpa using h l []
  intro l
  induction l with
  | nil => simp
  | cons x xs ih =>
    intro acc
    simp only [List.foldl_cons]
    refine (ih (insortBy le x acc)).trans ?_
    have h1 : (insortBy le x acc).Perm (x :: acc) := insortBy_perm le x acc
    refine (h1.append_right xs).trans ?_
    have : (x :: acc).Perm (acc ++ [x]) := by
      simpa using (@List.perm_append_comm _ [x] acc)
    simpa using this.append_right xs

theorem insortBy_sorted (le : α → α → Bool)
    (htot : ∀ a b, le a b = true ∨ le b a = true)
    (htrans : ∀ a b c, le a b = true → le b c = true → le a c = true)
    (x : α) : ∀ l : List α, SortedB le l → SortedB le (insortBy le x l) := by
  intro l
  induction l with
  | nil => intro _; simp [insortBy, SortedB]
  | cons y ys ih =>
    intro hs
    have hy : ∀ b ∈ ys, le y b = true := by
      intro b hb
      exact (List.pairwise_cons.mp hs).1 b hb
    have hys : SortedB le ys := (List.pairwise_cons.mp hs).2
    simp only [insortBy]
    by_cases h : le y x = true
    · simp only [h, if_true]
      refine List.pairwise_cons.mpr ⟨?_, ih hys⟩
      intro b hb
      have hb' := (insortBy_perm le x ys).mem_iff.mp hb
      rcases List.mem_cons.mp hb' with rfl | hbys
      · exact h
      · exact hy b hbys
    · simp only [h, if_false]
      have hxy : le x y = true := by
        rcases htot x y with h' | h'
        · exact h'
        · exact absurd h' h
      refine List.pairwise_cons.mpr ⟨?_, hs⟩
      intro b hb
      rcases List.mem_cons.mp hb with rfl | hbys
      · exact hxy
      · exact htrans x y b hxy (hy b hbys)

theorem sortBy_sorted (le : α → α → Bool)
    (htot : ∀ a b, le a b = true ∨ le b a = true)
    (htrans : ∀ a b c, le a b = true → le b c = true → le a c = true)
    (l : List α) : SortedB le (sortBy le l) := by
  suffices h : ∀ (l : List α) (acc : List α), SortedB le acc →
      SortedB le (l.foldl (fun acc x => insortBy le x acc) acc) by
    exact h l [] (by simp [SortedB])
  intro l
  induction l with
  | nil => intro acc h; simpa using h
  | cons x xs ih =>
    intro acc h
    exact ih (insortBy le x acc) (insortBy_sorted le htot htrans x acc h)

/-- Two sorted permutations of one another agree whenever `le` is antisymmetric on
the elements involved. -/
theorem sorted_perm_eq (le : α → α → Bool)
    {l₁ l₂ : List α} (hp : l₁.Perm l₂)
    (hs₁ : SortedB le l₁) (hs₂ : SortedB le l₂)
    (hanti : ∀ a ∈ l₁, ∀ b ∈ l₁, le a b = true → le b a = true → a = b) :
    l₁ = l₂ := by
  induction l₁ generalizing l₂ with
  | nil => simpa using hp.nil_eq
  | cons a t₁ ih =>
    cases l₂ with
    | nil => exact absurd hp.symm (by simp)
    | cons b t₂ =>
      have hab : a = b := by
        by_cases hab : a = b
        · exact hab
        · have hbmem : b ∈ a :: t₁ := hp.symm.subset (by simp)
          have hamem : a ∈ b :: t₂ := hp.subset (by simp)
          have hb₁ : b ∈ t₁ := by
            rcases List.mem_cons.mp hbmem with h | h
            · exact absurd h.symm hab
            · exact h
          have ha₂ : a ∈ t₂ := by
            rcases List.mem_cons.mp hamem with h | h
            · exact absurd h hab
            · exact h
          have h1 : le a b = true := (List.pairwise_cons.mp hs₁).1 b hb₁
          have h2 : le b a = true := (List.pairwise_cons.mp hs₂).1 a ha₂
          exact hanti a (by simp) b (List.mem_cons_of_mem a hb₁) h1 h2
      subst hab
      have hp' : t₁.Perm t₂ := hp.cons_inv
      have ht₁ : SortedB le t₁ := (List.pairwise_cons.mp hs₁).2
      have ht₂ : SortedB le t₂ := (List.pairwise_cons.mp hs₂).2
      have hanti' : ∀ x ∈ t₁, ∀ y ∈ t₁, le x y = true → le y x = true → x = y := by
        intro x hx y hy
        exact hanti x (List.mem_cons_of_mem a hx) y (List.mem_cons_of_mem a hy)
      exact congrArg (a :: ·) (ih hp' ht₁ ht₂ hanti')

/-! ## Option-valued map over a list

Models a Python comprehension in which each element computation may raise: the
whole comprehension raises iff some element does. -/

/-- Map `f` over `l`, failing if `f` fails anywhere. -/
def mapOpt (f : α → Option β) : List α → Option (List β)
  | [] => some []
  | x :: xs =>
    match f x, mapOpt f xs with
    | some y, some ys => some (y :: ys)
    | _, _ => none

theorem mapOpt_eq_some_iff (f : α → Option β) :
    ∀ {l : List α} {r : List β},
      mapOpt f l = some r ↔ List.Forall₂ (fun a b => f a = some b) l r := by
  intro l
  induction l with
  | nil =>
    intro r
    constructor
    · intro h
      simp only [mapOpt] at h
      cases h
      exact List.Forall₂.nil
    · intro h
      cases h
      rfl
  | cons x xs ih =>
    intro r
    constructor
    · intro h
      simp only [mapOpt] at h
      cases hfx : f x with
      | none => rw [hfx] at h; exact absurd h (by simp)
      | some y =>
        rw [hfx] at h
        cases hrest : mapOpt f xs with
        | none => rw [hrest] at h; exact absurd h (by simp)
        | some ys =>
          rw [hrest] at h
          simp only [Option.some.injEq] at h
          subst h
          exact List.Forall₂.cons hfx (ih.mp hrest)
    · intro h
      cases h with
      | cons hfx hrest =>
        simp only [mapOpt, hfx, ih.mpr hrest]

/-! ## The vector store -/

/-- `VectorStorage`: `dimension`, the two insertion-ordered dicts
`vectors : id -> vector` and `metadatas : id -> metadata`, and the counter
`next_id`. `μ` is the (opaque to the store) metadata type. -/
structure VectorStorage (μ : Type) where
  dimension : Nat
  vectors : List (Nat × Vec)
  metadatas : List (Nat × μ)
  next_id : Nat
deriving DecidableEq

/-- The constructor `VectorStorage(dimension)`: empty dicts, `next_id = 0`. -/
def VectorStorage.create (μ : Type) (dimension : Nat) : VectorStorage μ :=
  { dimension := dimension, vectors := [], metadatas := [], next_id := 0 }

/-- Source `add`: `fc.test_eq(self.dimension, len(vector))` raises on a dimension
mismatch (modelled by `none`); otherwise the record is stored under `next_id`,
`next_id` is incremented, and the assigned id is returned. -/
def VectorStorage.add (s : VectorStorage μ) (vector : Vec) (metadata : μ) :
    Option (Nat × VectorStorage μ) :=
  if s.dimension = vector.length then
    some (s.next_id,
      { s with
        vectors := s.vectors ++ [(s.next_id, vector)]
        metadatas := s.metadatas ++ [(s.next_id, metadata)]
        next_id := s.next_id + 1 })
  else none

/-- Source `get`: `(self.vectors[id], self.metadatas[id])`; a missing id raises
`KeyError` (modelled by `none`). -/
def VectorStorage.get (s : VectorStorage μ) (id : Nat) : Option (Vec × μ) :=
  match List.lookup id s.vectors, List.lookup id s.metadatas with
  | some v, some m => some (v, m)
  | _, _ => none

/-- Source `delete`: returns `false` and leaves the store unchanged if the id is
absent, otherwise pops the record from both dicts and returns `true`. -/
def VectorStorage.delete (s : VectorStorage μ) (id : Nat) : Bool × VectorStorage μ :=
  match List.lookup id s.vectors with
  | none => (false, s)
  | some _ =>
    (true,
      { s with
        vectors := s.vectors.eraseP (fun kv => kv.1 == id)
        metadatas := s.metadatas.eraseP (fun kv => kv.1 == id) })

/-- Source `get_all`: `fc.L((key, self.vectors[key], self.metadatas[key]) for key in self.vectors)`.
Iterates the `vectors` dict in insertion order; looking up a key absent from
`metadatas` would raise `KeyError` (modelled by `none`; unreachable from the
store's own operations, which keep the two dicts' key sets equal). -/
def VectorStorage.get_all (s : VectorStorage μ) : Option (List (Nat × Vec × μ)) :=
  mapOpt (fun kv =>
    match List.lookup kv.1 s.metadatas with
    | some m => some (kv.1, kv.2, m)
    | none => none) s.vectors

/-! ## Persistence: the JSON document written by `save` and read by `load`

The document is modelled as an association list of named top-level fields. Ids
become decimal strings on the way out (`str(k)` for the `vectors` keys, and
`json.dumps`'s coercion of the `metadatas` dict's integer keys) and are parsed
back with `int(k)` on the way in. -/

/-- The decimal digit character for `d < 10` (`'0'` has code point 48). -/
def decDigitChar (d : Nat) : Char := Char.ofNat (48 + d)

/-- Python `str(n)` for a non-negative integer: its decimal representation. -/
def strNat (n : Nat) : String :=
  if n = 0 then "0" else String.mk (((Nat.digits 10 n).reverse).map decDigitChar)

/-- Python `int(s)` restricted to unsigned decimal strings (the only shape `save`
produces): parses a nonempty all-digit string, raising (`none`) otherwise. -/
def parseNat (s : String) : Option Nat :=
  if s.data.isEmpty then none
  else if s.data.all (fun c => 48 ≤ c.toNat && c.toNat ≤ 57) then
    some (s.data.foldl (fun acc c => acc * 10 + (c.toNat - 48)) 0)
  else none

/-- A top-level value of the persisted document: an integer, the vectors map, or
the metadatas map. -/
inductive JsonField (μ : Type)
  | nat (n : Nat)
  | vecMap (m : List (String × Vec))
  | metaMap (m : List (String × μ))
deriving DecidableEq

/-- The persisted document: named top-level fields in write order. -/
abbrev SavedDoc (μ : Type) := List (String × JsonField μ)

/-- Source `save`: serializes
`{'dimension': ..., 'next_id': ..., 'vectors': {str(k): v.tolist() ...}, 'metadatas': ...}`.
The `metadatas` dict is dumped as-is; `json.dumps` renders its integer keys as
the same decimal strings. -/
def VectorStorage.save (s : VectorStorage μ) : SavedDoc μ :=
  [("dimension", .nat s.dimension),
   ("next_id", .nat s.next_id),
   ("vectors", .vecMap (s.vectors.map (fun kv => (strNat kv.1, kv.2)))),
   ("metadatas", .metaMap (s.metadatas.map (fun kv => (strNat kv.1, kv.2))))]

/-- Source `load`: reads the four fields (a missing or ill-typed field raises,
modelled by `none`), rebuilds both maps with `int(k)` applied to every key, and
restores `dimension` and `next_id`. -/
def VectorStorage.load (d : SavedDoc μ) : Option (VectorStorage μ) :=
  match List.lookup "dimension" d, List.lookup "next_id" d,
        List.lookup "vectors" d, List.lookup "metadatas" d with
  | some (.nat dim), some (.nat nid), some (.vecMap vm), some (.metaMap mm) =>
    match mapOpt (fun kv => (parseNat kv.1).map (fun n => (n, kv.2))) vm,
          mapOpt (fun kv => (parseNat kv.1).map (fun n => (n, kv.2))) mm with
    | some vecs, some metas =>
      some { dimension := dim, vectors := vecs, metadatas := metas, next_id := nid }
    | _, _ => none
  | _, _, _, _ => none

theorem decDigitChar_toNat {d : Nat} (hd : d < 10) : (decDigitChar d).toNat = 48 + d := by
  interval_cases d <;> rfl

theorem decDigitChar_isDigit {d : Nat} (hd : d < 10) :
    (48 ≤ (decDigitChar d).toNat && (decDigitChar d).toNat ≤ 57) = true := by
  interval_cases d <;> rfl

theorem foldl_decDigits (ds : List Nat) (hds : ∀ d ∈ ds, d < 10) (a : Nat) :
    ((ds.reverse).map decDigitChar).foldl (fun acc c => acc * 10 + (c.toNat - 48)) a
      = a * 10 ^ ds.length + Nat.ofDigits 10 ds := by
  induction ds generalizing a with
  | nil => simp [Nat.ofDigits]
  | cons d ds ih =>
    have hd : d < 10 := hds d (by simp)
    have hds' : ∀ x ∈ ds, x < 10 := fun x hx => hds x (by simp [hx])
    simp only [List.reverse_cons, List.map_append, List.foldl_append, List.map_cons,
      List.map_nil, List.foldl_cons, List.foldl_nil]
    rw [ih hds' a, decDigitChar_toNat hd, Nat.ofDigits_cons]
    have : 48 + d - 48 = d := by omega
    rw [this]
    simp only [List.length_cons, pow_succ]
    ring

/-- Round trip of the id codec: `int(str(n)) = n`. -/
theorem parseNat_strNat (n : Nat) : parseNat (strNat n) = some n := by
  by_cases h0 : n = 0
  · subst h0; rfl
  · have hne : Nat.digits 10 n ≠ [] := Nat.digits_ne_nil_iff_ne_zero.mpr h0
    have hlt : ∀ d ∈ Nat.digits 10 n, d < 10 :=
      fun d hd => Nat.digits_lt_base (by norm_num) hd
    simp only [strNat, h0, if_false, parseNat]
    have hnonempty : (((Nat.digits 10 n).reverse).map decDigitChar).isEmpty = false := by
      simp [List.isEmpty_iff, hne]
    rw [hnonempty]
    simp only [Bool.false_eq_true, if_false]
    have hall : (((Nat.digits 10 n).reverse).map decDigitChar).all
        (fun c => 48 ≤ c.toNat && c.toNat ≤ 57) = true := by
      rw [List.all_eq_true]
      intro c hc
      rcases List.mem_map.mp hc with ⟨d, hd, rfl⟩
      exact decDigitChar_isDigit (hlt d (List.mem_reverse.mp hd))
    rw [if_pos hall]
    rw [foldl_decDigits (Nat.digits 10 n) hlt 0]
    simp [Nat.ofDigits_digits]

/-! ## Building the inverted-file partition

`build_index` consumes the clustering collaborator's output. `run_kmeans`
(a thin wrapper around the external `FastKMeans`) is modelled as a function
parameter `rk : List Vec → List Vec × List Nat` returning the centroid list and
the per-vector cluster ids. -/

/-- Read a key of a `defaultdict(list)`: the stored list, or `[]` when absent. -/
def getList (m : List (Nat × List Nat)) (k : Nat) : List Nat :=
  (List.lookup k m).getD []

/-- `m[k].append(v)` on a `defaultdict(list)`: append `v` to the existing entry
in place, or create the entry `(k, [v])` at the end (dict insertion order). -/
def appendAt (m : List (Nat × List Nat)) (k v : Nat) : List (Nat × List Nat) :=
  match m with
  | [] => [(k, [v])]
  | (k', l) :: rest => if k' = k then (k', l ++ [v]) :: rest else (k', l) :: appendAt rest k v

/-- `m[k] = v` on a dict: overwrite in place, or insert at the end. -/
def setKey (m : List (Nat × Nat)) (k v : Nat) : List (Nat × Nat) :=
  match m with
  | [] => [(k, v)]
  | (k', v') :: rest => if k' = k then (k', v) :: rest else (k', v') :: setKey rest k v

/-- All ids across all inverted lists, in map order. -/
def flatUnion (m : List (Nat × List Nat)) : List Nat := (m.map Prod.snd).flatten

/-- Source `build_index(vs)`: snapshot ids and vectors via `get_all` (the
`zip(*...)` unpacking raises on an empty snapshot), run the clustering
collaborator, then fold `zip(ids, preds)` into the cluster-to-ids map and the
id-to-cluster map. -/
def build_index (rk : List Vec → List Vec × List Nat) (vs : VectorStorage μ) :
    Option (List (Nat × List Nat) × List (Nat × Nat) × List Vec) :=
  match vs.get_all with
  | none => none
  | some all =>
    if all.isEmpty then none
    else
      let ids := all.map Prod.fst
      let vectors := all.map (fun t => t.2.1)
      let cp := rk vectors
      let pairs := ids.zip cp.2
      some (pairs.foldl (fun m p => appendAt m p.2 p.1) [],
            pairs.foldl (fun m p => setKey m p.1 p.2) [],
            cp.1)

/-- The clustering collaborator's contract: one cluster id per input vector,
each naming one of the returned centroids. -/
def KMeansContract (rk : List Vec → List Vec × List Nat) : Prop :=
  ∀ data : List Vec, (rk data).2.length = data.length ∧
    ∀ c ∈ (rk data).2, c < (rk data).1.length

/-! ## The IVF index -/

/-- `IVFIndex` state: the referenced storage, `nprobe`, the configured metric
name, the `is_built` flag, and (once built) the partition data. The constructor
leaves the partition fields empty with `is_built = false`. -/
structure IVFIndex (μ : Type) where
  storage : VectorStorage μ
  nprobe : Nat
  distance_fn : Metric
  is_built : Bool
  inverted_lists : List (Nat × List Nat)
  assignments : List (Nat × Nat)
  centroids : List Vec
deriving DecidableEq

/-- The constructor `IVFIndex(storage, nprobe, distance_fn)`; the source
defaults are `nprobe=10` and `distance_fn='cosine'`, passed explicitly here. -/
def IVFIndex.create (storage : VectorStorage μ) (nprobe : Nat)
    (distance_fn : Metric) : IVFIndex μ :=
  { storage := storage, nprobe := nprobe, distance_fn := distance_fn,
    is_built := false, inverted_lists := [], assignments := [], centroids := [] }

/-- Source `build`: raises `ValueError("Storage is empty, cannot build index")`
on an empty snapshot (before any mutation), otherwise installs the partition
from `build_index` and sets `is_built`. The closing summary `print` divides by
`len(sizes)` and calls `max(sizes)`, so a (contract-violating) empty partition
raises; we model that failure but not its half-mutated state, which no claim
examines. -/
def IVFIndex.build (rk : List Vec → List Vec × List Nat) (idx : IVFIndex μ) :
    Except String (IVFIndex μ) :=
  match idx.storage.get_all with
  | none => .error "KeyError"
  | some all_data =>
    if all_data.isEmpty then .error "Storage is empty, cannot build index"
    else
      match build_index rk idx.storage with
      | none => .error "KeyError"
      | some (il, asg, cen) =>
        if il.isEmpty then .error "ZeroDivisionError"
        else
          .ok { idx with inverted_lists := il, assignments := asg,
                         centroids := cen, is_built := true }

/-- Exception semantics of calling `build`: the post-call index state paired
with the raised message, if any. A raise on the empty-snapshot check happens
before any mutation, so the state is returned unchanged. -/
def IVFIndex.buildRun (rk : List Vec → List Vec × List Nat) (idx : IVFIndex μ) :
    IVFIndex μ × Option String :=
  match idx.build rk with
  | .ok idx' => (idx', none)
  | .error e => (idx, some e)

/-- Python tuple comparison on `(distance, cluster id)` pairs, as used by
`centroid_distances.sort()`. -/
def pairLe (a b : ℚ × Nat) : Bool :=
  decide (a.1 < b.1 ∨ (a.1 = b.1 ∧ a.2 ≤ b.2))

/-- Source `search`, step 1: `(vers(centroid, query), cluster_id)` for every
enumerated centroid, sorted ascending. -/
def centroidDistances (sq : ℚ → ℚ) (idx : IVFIndex μ) (query_vector : Vec) :
    List (ℚ × Nat) :=
  sortBy pairLe ((idx.centroids.enum).map (fun o => (vers sq o.2 query_vector, o.1)))

/-- Source `search`, step 2: union (concatenation) of the inverted lists of the
first `nprobe` sorted clusters. -/
def initialCandidates (idx : IVFIndex μ) (cd : List (ℚ × Nat)) : List Nat :=
  ((cd.take idx.nprobe).map (fun o => getList idx.inverted_lists o.2)).flatten

/-- Source `search`, fallback loop: keep extending the candidate list with the
next-nearest clusters, breaking once the count reaches `k * 2`. -/
def fallbackLoop (il : List (Nat × List Nat)) (k : Nat) :
    List (ℚ × Nat) → List Nat → List Nat
  | [], acc => acc
  | (_, cluster_id) :: rest, acc =>
    let acc' := acc ++ getList il cluster_id
    if acc'.length ≥ k * 2 then acc' else fallbackLoop il k rest acc'

/-- The complete candidate-id computation of `search`: probe the `nprobe`
nearest clusters, then run the fallback loop only when fewer than `k`
candidates were found. -/
def searchCandidates (sq : ℚ → ℚ) (idx : IVFIndex μ) (query_vector : Vec) (k : Nat) :
    List Nat :=
  let cd := centroidDistances sq idx query_vector
  let init := initialCandidates idx cd
  if init.length < k then fallbackLoop idx.inverted_lists k (cd.drop idx.nprobe) init
  else init

/-- Source `search(query_vector, k=5)`: raises if not built; resolves every
candidate id through `storage.get` (a stale id raises `KeyError`); ranks the
records by the configured metric against the query (stable sort, ascending);
returns the first `k`. -/
def IVFIndex.search (sq : ℚ → ℚ) (idx : IVFIndex μ) (query_vector : Vec) (k : Nat) :
    Except String (List (Vec × μ)) :=
  if idx.is_built = false then .error "Index not built. Call build() first."
  else
    match mapOpt idx.storage.get (searchCandidates sq idx query_vector k) with
    | none => .error "KeyError"
    | some results =>
      .ok ((sortBy (fun a b =>
          decide (func_map sq idx.distance_fn query_vector a.1
                    ≤ func_map sq idx.distance_fn query_vector b.1)) results).take k)

/-- fastcore `zip_cycle`: zip the lists, cycling the shorter through to the
length of the longer. -/
def zip_cycle (xs : List α) (ys : List β) : List (α × β) :=
  (List.range (max xs.length ys.length)).filterMap (fun i =>
    match xs.get? (i % xs.length), ys.get? (i % ys.length) with
    | some x, some y => some (x, y)
    | _, _ => none)

/-- Source `add_vectors_bulk`: the expression
`fc.L(vectors, metadata_list).zip(lambda o: self.storage.add(o[0], o[1]))`
builds the two-element `L` `[vectors, metadata_list]` and calls `L.zip` with the
lambda bound to `zip`'s positional `cycled` parameter. A function object is
truthy, so `zip` returns `zip_cycle(vectors, metadata_list)` and the lambda —
the only call to `storage.add` — is never invoked. The method therefore
returns the zipped (vector, metadata) pairs and rebuilds over the unchanged
store. -/
def IVFIndex.add_vectors_bulk (rk : List Vec → List Vec × List Nat)
    (idx : IVFIndex μ) (vectors : List Vec) (metadata_list : List μ) :
    Except String (List (Vec × μ) × IVFIndex μ) :=
  let ids := zip_cycle vectors metadata_list
  match idx.build rk with
  | .ok idx' => .ok (ids, idx')
  | .error e => .error e

/-- The record returned by `get_stats` on a built index. -/
structure Stats where
  n_clusters : Nat
  n_vectors : Nat
  avg_cluster_size : ℚ
  min_cluster_size : Nat
  max_cluster_size : Nat
  empty_clusters : Nat
  nprobe : Nat
deriving DecidableEq

/-- Source `get_stats`: `{'built': False}` when not built (modelled by `none`),
otherwise the summary record over the inverted-list sizes. Python's
`min`/`max` raise on an empty partition and `sum/len` divides by zero; the
model totalizes those unreachable cases (a successful `build` never installs an
empty partition) with `getD 0` and `ℚ` division by zero. -/
def IVFIndex.get_stats (idx : IVFIndex μ) : Option Stats :=
  if idx.is_built = false then none
  else
    let sizes := idx.inverted_lists.map (fun p => p.2.length)
    some { n_clusters := idx.centroids.length,
           n_vectors := sizes.sum,
           avg_cluster_size := (sizes.sum : ℚ) / (sizes.length : ℚ),
           min_cluster_size := (sizes.min?).getD 0,
           max_cluster_size := (sizes.max?).getD 0,
           empty_clusters := sizes.count 0,
           nprobe := idx.nprobe }

/-! ## Association-list lemmas -/

theorem lookup_cons_self {β : Type} (i : Nat) (v : β) (l : List (Nat × β)) :
    List.lookup i ((i, v) :: l) = some v := by
  simp [List.lookup]

theorem lookup_cons_ne {β : Type} {i k : Nat} (v : β) (l : List (Nat × β)) (h : i ≠ k) :
    List.lookup i ((k, v) :: l) = List.lookup i l := by
  have hb : (i == k) = false := by simpa using h
  simp [List.lookup, hb]

theorem mem_of_lookup_eq_some {β : Type} {l : List (Nat × β)} {k : Nat} {v : β}
    (h : List.lookup k l = some v) : (k, v) ∈ l := by
  induction l with
  | nil => simp [List.lookup] at h
  | cons p rest ih =>
    obtain ⟨k', v'⟩ := p
    by_cases hk : k = k'
    · subst hk
      rw [lookup_cons_self] at h
      cases h
      simp
    · rw [lookup_cons_ne _ _ hk] at h
      exact List.mem_cons_of_mem _ (ih h)

theorem lookup_eq_some_of_nodup {β : Type} {l : List (Nat × β)} {k : Nat} {v : β}
    (hnd : (l.map Prod.fst).Nodup) (hmem : (k, v) ∈ l) : List.lookup k l = some v := by
  induction l with
  | nil => simp at hmem
  | cons p rest ih =>
    obtain ⟨k', v'⟩ := p
    rcases List.mem_cons.mp hmem with h | h
    · cases h
      exact lookup_cons_self k v rest
    · have hk : k ≠ k' := by
        intro hkk
        subst hkk
        have : k ∈ rest.map Prod.fst := List.mem_map.mpr ⟨(k, v), h, rfl⟩
        exact (List.nodup_cons.mp hnd).1 this
      rw [lookup_cons_ne _ _ hk]
      exact ih (List.nodup_cons.mp hnd).2 h

theorem lookup_nil {β : Type} (i : Nat) : List.lookup i ([] : List (Nat × β)) = none := rfl

theorem getList_nil (j : Nat) : getList [] j = [] := rfl

theorem getList_cons (k : Nat) (l : List Nat) (rest : List (Nat × List Nat)) (j : Nat) :
    getList ((k, l) :: rest) j = if j = k then l else getList rest j := by
  by_cases h : j = k
  · subst h
    simp [getList, lookup_cons_self]
  · simp [getList, lookup_cons_ne _ _ h, h]

theorem appendAt_nil (k v : Nat) : appendAt [] k v = [(k, [v])] := rfl

theorem appendAt_cons_eq (k v : Nat) (l : List Nat) (rest : List (Nat × List Nat)) :
    appendAt ((k, l) :: rest) k v = (k, l ++ [v]) :: rest := by
  simp [appendAt]

theorem appendAt_cons_ne {k' k : Nat} (hk : k' ≠ k) (v : Nat) (l : List Nat)
    (rest : List (Nat × List Nat)) :
    appendAt ((k', l) :: rest) k v = (k', l) :: appendAt rest k v := by
  simp [appendAt, hk]

theorem getList_appendAt (m : List (Nat × List Nat)) (k v : Nat) (j : Nat) :
    getList (appendAt m k v) j = if j = k then getList m j ++ [v] else getList m j := by
  induction m with
  | nil =>
    rw [appendAt_nil, getList_cons]
    by_cases h : j = k <;> simp [h, getList_nil]
  | cons p rest ih =>
    obtain ⟨k', l⟩ := p
    by_cases hk : k' = k
    · subst hk
      rw [appendAt_cons_eq, getList_cons, getList_cons]
      by_cases h : j = k' <;> simp [h]
    · rw [appendAt_cons_ne hk, getList_cons, getList_cons, ih]
      by_cases h : j = k'
      · subst h
        have hjk : ¬ j = k := fun hc => hk hc
        simp [hjk]
      · simp [h]

theorem flatUnion_appendAt (m : List (Nat × List Nat)) (k v : Nat) :
    (flatUnion (appendAt m k v)).Perm (flatUnion m ++ [v]) := by
  rw [List.perm_iff_count]
  intro a
  induction m with
  | nil => simp [appendAt_nil, flatUnion]
  | cons p rest ih =>
    obtain ⟨k', l⟩ := p
    by_cases hk : k' = k
    · subst hk
      rw [appendAt_cons_eq]
      simp [flatUnion, List.count_append, List.count_cons]
    · rw [appendAt_cons_ne hk]
      simp only [flatUnion, List.map_cons, List.flatten_cons, List.count_append] at ih ⊢
      omega

theorem keys_appendAt (m : List (Nat × List Nat)) (k v : Nat) :
    (appendAt m k v).map Prod.fst =
      if k ∈ m.map Prod.fst then m.map Prod.fst else m.map Prod.fst ++ [k] := by
  induction m with
  | nil => simp [appendAt_nil]
  | cons p rest ih =>
    obtain ⟨k', l⟩ := p
    by_cases hk : k' = k
    · subst hk
      rw [appendAt_cons_eq]
      simp
    · rw [appendAt_cons_ne hk]
      have hne : ¬ k = k' := fun h => hk h.symm
      simp only [List.map_cons, List.mem_cons, ih]
      by_cases hmem : k ∈ rest.map Prod.fst
      · simp [hmem, hne]
      · simp [hmem, hne]

theorem values_appendAt_ne_nil (m : List (Nat × List Nat)) (k v : Nat)
    (h : ∀ p ∈ m, p.2 ≠ []) : ∀ p ∈ appendAt m k v, p.2 ≠ [] := by
  induction m with
  | nil =>
    intro p hp
    rw [appendAt_nil] at hp
    rcases List.mem_singleton.mp hp with rfl
    simp
  | cons q rest ih =>
    obtain ⟨k', l⟩ := q
    intro p hp
    by_cases hk : k' = k
    · subst hk
      rw [appendAt_cons_eq] at hp
      rcases List.mem_cons.mp hp with rfl | hp'
      · simp
      · exact h p (List.mem_cons_of_mem _ hp')
    · rw [appendAt_cons_ne hk] at hp
      rcases List.mem_cons.mp hp with rfl | hp'
      · exact h (k', l) (by simp)
      · exact ih (fun q hq => h q (List.mem_cons_of_mem _ hq)) p hp'

theorem setKey_nil (k v : Nat) : setKey [] k v = [(k, v)] := rfl

theorem setKey_cons_eq (k v v' : Nat) (rest : List (Nat × Nat)) :
    setKey ((k, v') :: rest) k v = (k, v) :: rest := by
  simp [setKey]

theorem setKey_cons_ne {k' k : Nat} (hk : k' ≠ k) (v v' : Nat) (rest : List (Nat × Nat)) :
    setKey ((k', v') :: rest) k v = (k', v') :: setKey rest k v := by
  simp [setKey, hk]

theorem lookup_setKey (m : List (Nat × Nat)) (k v : Nat) (i : Nat) :
    List.lookup i (setKey m k v) = if i = k then some v else List.lookup i m := by
  induction m with
  | nil =>
    rw [setKey_nil]
    by_cases h : i = k
    · subst h
      simp [lookup_cons_self]
    · rw [lookup_cons_ne _ _ h]
      simp [h]
  | cons p rest ih =>
    obtain ⟨k', v'⟩ := p
    by_cases hk : k' = k
    · subst hk
      rw [setKey_cons_eq]
      by_cases h : i = k'
      · subst h
        simp [lookup_cons_self]
      · rw [lookup_cons_ne _ _ h, lookup_cons_ne _ _ h, if_neg h]
    · rw [setKey_cons_ne hk]
      by_cases h : i = k'
      · subst h
        have hik : ¬ i = k := fun hc => hk hc
        rw [lookup_cons_self, lookup_cons_self, if_neg hik]
      · rw [lookup_cons_ne _ _ h, lookup_cons_ne _ _ h, ih]

/-! ## Lemmas about the partition-building folds -/

theorem flatUnion_foldl_appendAt (pairs : List (Nat × Nat)) (m0 : List (Nat × List Nat)) :
    (flatUnion (pairs.foldl (fun m p => appendAt m p.2 p.1) m0)).Perm
      (flatUnion m0 ++ pairs.map Prod.fst) := by
  induction pairs generalizing m0 with
  | nil => simp
  | cons p ps ih =>
    simp only [List.foldl_cons, List.map_cons]
    refine (ih (appendAt m0 p.2 p.1)).trans ?_
    refine ((flatUnion_appendAt m0 p.2 p.1).append_right (ps.map Prod.fst)).trans ?_
    have : flatUnion m0 ++ [p.1] ++ ps.map Prod.fst
        = flatUnion m0 ++ p.1 :: ps.map Prod.fst := by simp
    rw [this]

theorem mem_getList_foldl (pairs : List (Nat × Nat)) (m0 : List (Nat × List Nat))
    (id c : Nat) :
    id ∈ getList (pairs.foldl (fun m p => appendAt m p.2 p.1) m0) c ↔
      (id, c) ∈ pairs ∨ id ∈ getList m0 c := by
  induction pairs generalizing m0 with
  | nil => simp
  | cons p ps ih =>
    simp only [List.foldl_cons, List.mem_cons]
    rw [ih, getList_appendAt]
    by_cases hc : c = p.2
    · rw [if_pos hc]
      simp only [List.mem_append, List.mem_singleton, Prod.ext_iff]
      constructor
      · rintro (hm | hm | rfl)
        · exact Or.inl (Or.inr hm)
        · exact Or.inr hm
        · exact Or.inl (Or.inl ⟨rfl, hc⟩)
      · rintro ((⟨rfl, -⟩ | hm) | hm)
        · exact Or.inr (Or.inr rfl)
        · exact Or.inl hm
        · exact Or.inr (Or.inl hm)
    · rw [if_neg hc]
      simp only [Prod.ext_iff]
      constructor
      · rintro (hm | hm)
        · exact Or.inl (Or.inr hm)
        · exact Or.inr hm
      · rintro ((⟨-, he⟩ | hm) | hm)
        · exact absurd he hc
        · exact Or.inl hm
        · exact Or.inr hm

theorem keys_foldl_appendAt_nodup (pairs : List (Nat × Nat)) (m0 : List (Nat × List Nat))
    (h : (m0.map Prod.fst).Nodup) :
    ((pairs.foldl (fun m p => appendAt m p.2 p.1) m0).map Prod.fst).Nodup := by
  induction pairs generalizing m0 with
  | nil => simpa
  | cons p ps ih =>
    apply ih
    rw [keys_appendAt]
    by_cases hmem : p.2 ∈ m0.map Prod.fst
    · simpa [hmem] using h
    · rw [if_neg hmem]
      have hperm : (m0.map Prod.fst ++ [p.2]).Perm (p.2 :: m0.map Prod.fst) := by
        simpa using (@List.perm_append_comm _ (m0.map Prod.fst) [p.2])
      exact hperm.nodup_iff.mpr (List.nodup_cons.mpr ⟨hmem, h⟩)

theorem keys_foldl_appendAt_subset (pairs : List (Nat × Nat)) (m0 : List (Nat × List Nat)) :
    ∀ key ∈ (pairs.foldl (fun m p => appendAt m p.2 p.1) m0).map Prod.fst,
      key ∈ m0.map Prod.fst ∨ key ∈ pairs.map Prod.snd := by
  induction pairs generalizing m0 with
  | nil =>
    intro key h
    exact Or.inl h
  | cons p ps ih =>
    intro key h
    rcases ih (appendAt m0 p.2 p.1) key h with h' | h'
    · rw [keys_appendAt] at h'
      by_cases hmem : p.2 ∈ m0.map Prod.fst
      · rw [if_pos hmem] at h'
        exact Or.inl h'
      · rw [if_neg hmem] at h'
        rcases List.mem_append.mp h' with h'' | h''
        · exact Or.inl h''
        · right
          rcases List.mem_singleton.mp h''
          simp
    · right
      simp only [List.map_cons, List.mem_cons]
      exact Or.inr h'

theorem values_foldl_appendAt_ne_nil (pairs : List (Nat × Nat))
    (m0 : List (Nat × List Nat)) (h : ∀ p ∈ m0, p.2 ≠ []) :
    ∀ q ∈ pairs.foldl (fun m p => appendAt m p.2 p.1) m0, q.2 ≠ [] := by
  induction pairs generalizing m0 with
  | nil => exact h
  | cons p ps ih =>
    exact ih _ (values_appendAt_ne_nil m0 p.2 p.1 h)

theorem lookup_foldl_setKey (pairs : List (Nat × Nat)) (m0 : List (Nat × Nat))
    (hnd : (pairs.map Prod.fst).Nodup) (i c : Nat) :
    List.lookup i (pairs.foldl (fun m p => setKey m p.1 p.2) m0) = some c ↔
      ((i, c) ∈ pairs ∨ (i ∉ pairs.map Prod.fst ∧ List.lookup i m0 = some c)) := by
  induction pairs generalizing m0 with
  | nil => simp
  | cons p ps ih =>
    have hnd' : (ps.map Prod.fst).Nodup := (List.nodup_cons.mp (by simpa using hnd)).2
    have hpnot : p.1 ∉ ps.map Prod.fst := (List.nodup_cons.mp (by simpa using hnd)).1
    simp only [List.foldl_cons]
    rw [ih _ hnd', lookup_setKey]
    by_cases hi : i = p.1
    · rw [if_pos hi]
      have h1 : ¬ ((i, c) ∈ ps) := by
        intro hm
        apply hpnot
        have : i ∈ ps.map Prod.fst := List.mem_map.mpr ⟨(i, c), hm, rfl⟩
        rwa [hi] at this
      have h2 : i ∉ ps.map Prod.fst := fun hm => hpnot (by rwa [hi] at hm)
      have h3 : i ∈ (p :: ps).map Prod.fst := by simp [hi]
      constructor
      · rintro (hm | ⟨-, hsome⟩)
        · exact absurd hm h1
        · have hc : p.2 = c := by injection hsome
          exact Or.inl (List.mem_cons.mpr (Or.inl (Prod.ext_iff.mpr ⟨hi, hc.symm⟩)))
      · rintro (hm | ⟨hnotin, -⟩)
        · rcases List.mem_cons.mp hm with he | hm'
          · have hc : c = p.2 := congrArg Prod.snd he
            exact Or.inr ⟨h2, by rw [hc]⟩
          · exact absurd hm' h1
        · exact absurd h3 hnotin
    · rw [if_neg hi]
      have h4 : ¬ ((i, c) = p) := fun he => hi (congrArg Prod.fst he)
      constructor
      · rintro (hm | ⟨hn, hl⟩)
        · exact Or.inl (List.mem_cons.mpr (Or.inr hm))
        · refine Or.inr ⟨?_, hl⟩
          intro hmem
          rcases (by simpa using hmem : i = p.1 ∨ i ∈ ps.map Prod.fst) with h | h
          · exact hi h
          · exact hn h
      · rintro (hm | ⟨hn, hl⟩)
        · rcases List.mem_cons.mp hm with he | hm'
          · exact absurd he h4
          · exact Or.inl hm'
        · refine Or.inr ⟨fun hmem => hn ?_, hl⟩
          rw [List.map_cons]
          exact List.mem_cons_of_mem _ hmem

/-! ## get_all lemmas -/

theorem get_all_aux {μ : Type} (md : List (Nat × μ)) :
    ∀ {vl : List (Nat × Vec)} {all : List (Nat × Vec × μ)},
      List.Forall₂ (fun kv t =>
        (match List.lookup kv.1 md with
         | some m => some (kv.1, kv.2, m)
         | none => none) = some t) vl all →
      all.map (fun t => (t.1, t.2.1)) = vl ∧
        ∀ t ∈ all, List.lookup t.1 md = some t.2.2 := by
  intro vl all h
  induction h with
  | nil => simp
  | cons hrel hrest ih =>
    rename_i kv t vl' all'
    cases hlk : List.lookup kv.1 md with
    | none => rw [hlk] at hrel; exact absurd hrel (by simp)
    | some m =>
      rw [hlk] at hrel
      have ht : t = (kv.1, kv.2, m) := by
        cases hrel
        rfl
      subst ht
      refine ⟨by simp [ih.1], ?_⟩
      intro t' ht'
      rcases List.mem_cons.mp ht' with rfl | ht''
      · exact hlk
      · exact ih.2 t' ht''

theorem get_all_shape {μ : Type} {s : VectorStorage μ} {all : List (Nat × Vec × μ)}
    (h : s.get_all = some all) :
    all.map (fun t => (t.1, t.2.1)) = s.vectors ∧
      ∀ t ∈ all, List.lookup t.1 s.metadatas = some t.2.2 :=
  get_all_aux s.metadatas ((mapOpt_eq_some_iff _).mp h)

theorem get_all_ids {μ : Type} {s : VectorStorage μ} {all : List (Nat × Vec × μ)}
    (h : s.get_all = some all) : all.map Prod.fst = s.vectors.map Prod.fst := by
  have := (get_all_shape h).1
  calc all.map Prod.fst
      = (all.map (fun t => (t.1, t.2.1))).map Prod.fst := by simp [Function.comp]
    _ = s.vectors.map Prod.fst := by rw [this]

theorem get_of_mem_get_all {μ : Type} {s : VectorStorage μ} {all : List (Nat × Vec × μ)}
    (h : s.get_all = some all) (hnd : (s.vectors.map Prod.fst).Nodup) :
    ∀ t ∈ all, s.get t.1 = some (t.2.1, t.2.2) := by
  intro t ht
  have hshape := get_all_shape h
  have hv : (t.1, t.2.1) ∈ s.vectors := by
    rw [← hshape.1]
    exact List.mem_map.mpr ⟨t, ht, rfl⟩
  have h1 : List.lookup t.1 s.vectors = some t.2.1 := lookup_eq_some_of_nodup hnd hv
  have h2 : List.lookup t.1 s.metadatas = some t.2.2 := hshape.2 t ht
  simp [VectorStorage.get, h1, h2]

/-! ## Probing every cluster reaches the whole partition -/

theorem flatten_getList_perm_aux (m : List (Nat × List Nat)) :
    ∀ ns : List Nat, ns.Nodup → (m.map Prod.fst).Nodup →
      (∀ k ∈ m.map Prod.fst, k ∈ ns) →
      ((ns.map (getList m)).flatten).Perm (flatUnion m) := by
  induction m with
  | nil =>
    intro ns _ _ _
    have : ns.map (getList []) = ns.map (fun _ => []) := by
      apply List.map_congr_left
      intro a _
      rfl
    rw [this]
    have : (ns.map (fun _ => ([] : List Nat))).flatten = [] := by
      induction ns with
      | nil => rfl
      | cons x xs ih => simpa using ih
    rw [this]
    rfl
  | cons p rest ih =>
    obtain ⟨k, l⟩ := p
    intro ns hns hnd hsub
    have hkns : k ∈ ns := hsub k (by simp)
    obtain ⟨ns₁, ns₂, rfl⟩ := List.append_of_mem hkns
    have hknotin₁ : k ∉ ns₁ := by
      intro hc
      have := List.nodup_append.mp hns
      exact (this.2.2 hc) (by simp)
    have hknotin₂ : k ∉ ns₂ := by
      have := List.nodup_append.mp hns
      exact fun hc => (List.nodup_cons.mp this.2.1).1 hc
    have hknotrest : k ∉ rest.map Prod.fst := (List.nodup_cons.mp (by simpa using hnd)).1
    have hndrest : (rest.map Prod.fst).Nodup := (List.nodup_cons.mp (by simpa using hnd)).2
    have hgl : ∀ j ∈ ns₁ ++ ns₂, getList ((k, l) :: rest) j = getList rest j := by
      intro j hj
      have hjk : j ≠ k := by
        intro hc
        subst hc
        rcases List.mem_append.mp hj with h | h
        · exact hknotin₁ h
        · exact hknotin₂ h
      rw [getList_cons, if_neg hjk]
    have hrestk : getList rest k = [] := by
      cases hlk : List.lookup k rest with
      | none => simp [getList, hlk]
      | some l' =>
        exact absurd (List.mem_map.mpr ⟨(k, l'), mem_of_lookup_eq_some hlk, rfl⟩) hknotrest
    have hsub' : ∀ j ∈ rest.map Prod.fst, j ∈ ns₁ ++ ns₂ := by
      intro j hj
      have hjk : j ≠ k := fun hc => hknotrest (hc ▸ hj)
      have := hsub j (by simp [hj])
      rcases List.mem_append.mp this with h | h
      · exact List.mem_append.mpr (Or.inl h)
      · rcases List.mem_cons.mp h with h' | h'
        · exact absurd h' hjk
        · exact List.mem_append.mpr (Or.inr h')
    have hns' : (ns₁ ++ ns₂).Nodup := by
      have h1 := List.nodup_append.mp hns
      exact List.nodup_append.mpr
        ⟨h1.1, (List.nodup_cons.mp h1.2.1).2,
         fun a ha hb => h1.2.2 ha (List.mem_cons_of_mem k hb)⟩
    have hih := ih (ns₁ ++ ns₂) hns' hndrest hsub'
    rw [List.perm_iff_count] at hih ⊢
    intro a
    have hcount := hih a
    have e₁ : ((ns₁ ++ k :: ns₂).map (getList ((k, l) :: rest))).flatten
        = (ns₁.map (getList ((k, l) :: rest))).flatten ++
          (l ++ (ns₂.map (getList ((k, l) :: rest))).flatten) := by
      simp [getList_cons]
    have e₂ : ns₁.map (getList ((k, l) :: rest)) = ns₁.map (getList rest) := by
      apply List.map_congr_left
      intro j hj
      exact hgl j (List.mem_append.mpr (Or.inl hj))
    have e₃ : ns₂.map (getList ((k, l) :: rest)) = ns₂.map (getList rest) := by
      apply List.map_congr_left
      intro j hj
      exact hgl j (List.mem_append.mpr (Or.inr hj))
    have e₄ : ((ns₁ ++ ns₂).map (getList rest)).flatten
        = (ns₁.map (getList rest)).flatten ++ (ns₂.map (getList rest)).flatten := by
      simp
    rw [e₄] at hcount
    rw [e₁, e₂, e₃]
    simp only [flatUnion, List.map_cons, List.flatten_cons, List.count_append] at hcount ⊢
    omega

theorem flatten_range_getList_perm (m : List (Nat × List Nat)) (n : Nat)
    (hnd : (m.map Prod.fst).Nodup) (hlt : ∀ k ∈ m.map Prod.fst, k < n) :
    (((List.range n).map (getList m)).flatten).Perm (flatUnion m) :=
  flatten_getList_perm_aux m (List.range n) (List.nodup_range n) hnd
    (fun k hk => List.mem_range.mpr (hlt k hk))

/-! ## Operation traces over a store (for id monotonicity) -/

/-- One store mutation: an `add(vector, metadata)` call or a `delete(id)` call. -/
inductive StoreOp (μ : Type)
  | add (vector : Vec) (metadata : μ)
  | delete (id : Nat)

/-- Apply one operation. A failed `add` (dimension mismatch raises before any
mutation) leaves the store unchanged and returns no id; `delete` returns no id. -/
def applyOp (s : VectorStorage μ) : StoreOp μ → VectorStorage μ × Option Nat
  | .add v m =>
    match s.add v m with
    | some (id, s') => (s', some id)
    | none => (s, none)
  | .delete id => ((s.delete id).2, none)

/-- Run a sequence of operations from a store, collecting the ids returned by
the successful `add` calls in call order. -/
def runOps (s : VectorStorage μ) : List (StoreOp μ) → VectorStorage μ × List Nat
  | [] => (s, [])
  | op :: ops =>
    let r := applyOp s op
    let rest := runOps r.1 ops
    (rest.1, r.2.toList ++ rest.2)

theorem add_eq_some {μ : Type} {s s' : VectorStorage μ} {v : Vec} {m : μ} {id : Nat}
    (h : s.add v m = some (id, s')) : id = s.next_id ∧ s'.next_id = s.next_id + 1 := by
  unfold VectorStorage.add at h
  by_cases hd : s.dimension = v.length
  · rw [if_pos hd] at h
    cases h
    exact ⟨rfl, rfl⟩
  · rw [if_neg hd] at h
    cases h

theorem delete_next_id {μ : Type} (s : VectorStorage μ) (id : Nat) :
    ((s.delete id).2).next_id = s.next_id := by
  unfold VectorStorage.delete
  cases List.lookup id s.vectors <;> rfl

theorem applyOp_next_id_mono {μ : Type} (s : VectorStorage μ) (op : StoreOp μ) :
    s.next_id ≤ (applyOp s op).1.next_id := by
  cases op with
  | add v m =>
    cases h : s.add v m with
    | none => simp [applyOp, h]
    | some r =>
      obtain ⟨id, s'⟩ := r
      have h2 := (add_eq_some h).2
      simp only [applyOp, h]
      omega
  | delete id =>
    simp [applyOp, delete_next_id]

theorem runOps_next_id_mono {μ : Type} (ops : List (StoreOp μ)) (s : VectorStorage μ) :
    s.next_id ≤ (runOps s ops).1.next_id := by
  induction ops generalizing s with
  | nil => exact Nat.le_refl _
  | cons op ops ih =>
    exact Nat.le_trans (applyOp_next_id_mono s op) (ih (applyOp s op).1)

theorem runOps_ids_ge {μ : Type} (ops : List (StoreOp μ)) (s : VectorStorage μ) :
    ∀ id ∈ (runOps s ops).2, s.next_id ≤ id := by
  induction ops generalizing s with
  | nil => intro id h; simp [runOps] at h
  | cons op ops ih =>
    intro id h
    simp only [runOps, List.mem_append] at h
    rcases h with h | h
    · cases op with
      | add v m =>
        simp only [applyOp] at h
        cases hadd : s.add v m with
        | none => rw [hadd] at h; simp [Option.toList] at h
        | some r =>
          obtain ⟨rid, s'⟩ := r
          rw [hadd] at h
          simp only [Option.toList, List.mem_singleton] at h
          subst h
          exact Nat.le_of_eq (add_eq_some hadd).1.symm
      | delete d => simp [applyOp, Option.toList] at h
    · exact Nat.le_trans (applyOp_next_id_mono s op) (ih (applyOp s op).1 id h)

/-- C9: across any operation sequence, the ids handed out by `add` are pairwise
strictly increasing: consecutive successful adds return strictly increasing ids,
and an id returned (and possibly deleted) earlier is never returned again. -/
theorem C9_id_monotonicity {μ : Type} (s : VectorStorage μ) (ops : List (StoreOp μ)) :
    ((runOps s ops).2).Pairwise (· < ·) := by
  induction ops generalizing s with
  | nil => simp [runOps]
  | cons op ops ih =>
    simp only [runOps]
    cases op with
    | add v m =>
      simp only [applyOp]
      cases hadd : s.add v m with
      | none =>
        simp only [Option.toList, List.nil_append]
        exact ih s
      | some r =>
        obtain ⟨rid, s'⟩ := r
        simp only [Option.toList, List.singleton_append]
        refine List.pairwise_cons.mpr ⟨?_, ih s'⟩
        intro j hj
        have h1 : s'.next_id ≤ j := runOps_ids_ge ops s' j hj
        have h2 := add_eq_some hadd
        omega
    | delete d =>
      simp only [applyOp, Option.toList, List.nil_append]
      exact ih ((s.delete d).2)

/-! ## Persistence claims -/

theorem mapOpt_parse_strNat {β : Type} (l : List (Nat × β)) :
    mapOpt (fun kv => (parseNat kv.1).map (fun n => (n, kv.2)))
      (l.map (fun kv => (strNat kv.1, kv.2))) = some l := by
  induction l with
  | nil => rfl
  | cons kv rest ih =>
    simp [List.map_cons, mapOpt, parseNat_strNat, ih]

/-- C6: loading the document produced by `save` restores a store with the same
dimension, `next_id`, and identical id-to-vector and id-to-metadata maps, with
every id parsed back to the original integer. -/
theorem C6_save_load_round_trip {μ : Type} (s : VectorStorage μ) :
    VectorStorage.load (VectorStorage.save s) = some s := by
  have h1 : List.lookup "dimension" (VectorStorage.save s) = some (.nat s.dimension) := rfl
  have h2 : List.lookup "next_id" (VectorStorage.save s) = some (.nat s.next_id) := rfl
  have h3 : List.lookup "vectors" (VectorStorage.save s)
      = some (.vecMap (s.vectors.map (fun kv => (strNat kv.1, kv.2)))) := rfl
  have h4 : List.lookup "metadatas" (VectorStorage.save s)
      = some (.metaMap (s.metadatas.map (fun kv => (strNat kv.1, kv.2)))) := rfl
  unfold VectorStorage.load
  rw [h1, h2, h3, h4]
  simp only [mapOpt_parse_strNat]

/-- C7 counterexample: the persisted document of a (reachable, freshly created)
store names its fourth top-level field `metadatas`, and has no field named
`metadata` at all, contradicting the claimed field list. -/
theorem C7_counterexample :
    (VectorStorage.save (VectorStorage.create Nat 1)).map Prod.fst
        = ["dimension", "next_id", "vectors", "metadatas"]
      ∧ "metadata" ∉ (VectorStorage.save (VectorStorage.create Nat 1)).map Prod.fst := by
  constructor
  · rfl
  · decide

/-- C7 (amended): the document has exactly the four top-level fields
`dimension`, `next_id`, `vectors`, and `metadatas`; the two maps are keyed by
the stringified integer ids of the live records, and (whenever the store's two
dicts agree on their key sequence, as every reachable store does) the two key
sets match exactly. -/
theorem C7_saved_document_fields {μ : Type} (s : VectorStorage μ)
    (hkeys : s.metadatas.map Prod.fst = s.vectors.map Prod.fst) :
    (VectorStorage.save s).map Prod.fst
        = ["dimension", "next_id", "vectors", "metadatas"]
    ∧ (∃ vm, List.lookup "vectors" (VectorStorage.save s) = some (.vecMap vm)
        ∧ vm.map Prod.fst = (s.vectors.map Prod.fst).map strNat)
    ∧ (∃ mm, List.lookup "metadatas" (VectorStorage.save s) = some (.metaMap mm)
        ∧ mm.map Prod.fst = (s.vectors.map Prod.fst).map strNat) := by
  have hv : List.lookup "vectors" (VectorStorage.save s)
      = some (.vecMap (s.vectors.map (fun kv => (strNat kv.1, kv.2)))) := rfl
  have hm : List.lookup "metadatas" (VectorStorage.save s)
      = some (.metaMap (s.metadatas.map (fun kv => (strNat kv.1, kv.2)))) := rfl
  refine ⟨rfl, ⟨s.vectors.map (fun kv => (strNat kv.1, kv.2)), hv, ?_⟩,
    ⟨s.metadatas.map (fun kv => (strNat kv.1, kv.2)), hm, ?_⟩⟩
  · simp [Function.comp]
  · rw [← hkeys]
    simp [Function.comp]

/-- A two-record store (ids 0 and 1), reached through `create` and two `add`s. -/
def twoRecStore : VectorStorage Nat :=
  match (VectorStorage.create Nat 1).add [1] 5 with
  | some (_, s1) =>
    match s1.add [2] 6 with
    | some (_, s2) => s2
    | none => s1
  | none => VectorStorage.create Nat 1

/-- C7 amended-claim witness at a concrete two-record store. -/
theorem C7_saved_document_fields_witness :
    (twoRecStore.metadatas.map Prod.fst = twoRecStore.vectors.map Prod.fst)
    ∧ ((VectorStorage.save twoRecStore).map Prod.fst
        = ["dimension", "next_id", "vectors", "metadatas"]) :=
  ⟨rfl, (C7_saved_document_fields twoRecStore rfl).1⟩

/-! ## Build / bulk-add claims -/

/-- A deterministic stand-in for the clustering collaborator, used to exercise
the index on concrete inputs: every vector becomes its own centroid and is
assigned its own cluster. -/
def stubK : List Vec → List Vec × List Nat := fun data => (data, List.range data.length)

theorem stubK_contract : KMeansContract stubK := by
  intro data
  constructor
  · simp [stubK]
  · intro c hc
    simpa [stubK] using List.mem_range.mp (by simpa [stubK] using hc)

/-- The store holding the single vector `[1]` (id 0), reached through `create`
and `add`. -/
def oneVecStore : VectorStorage Nat :=
  match (VectorStorage.create Nat 1).add [1] 7 with
  | some (_, s') => s'
  | none => VectorStorage.create Nat 1

/-- An index over `oneVecStore`, built once through the API and whose store was
then emptied through `delete` (the index shares the live store reference). -/
def emptiedBuiltIdx : IVFIndex Nat :=
  let idx0 := IVFIndex.create oneVecStore 10 Metric.cosine
  let idx1 :=
    match idx0.build stubK with
    | .ok i => i
    | .error _ => idx0
  { idx1 with storage := (idx1.storage.delete 0).2 }

/-- C8 counterexample: an index that was built successfully and whose store was
subsequently emptied. `build()` on it fails with the empty-store error, yet its
`built` flag is (and stays) `true`, not `false` as claimed. -/
theorem C8_counterexample :
    emptiedBuiltIdx.storage.get_all = some []
      ∧ emptiedBuiltIdx.buildRun stubK
          = (emptiedBuiltIdx, some "Storage is empty, cannot build index")
      ∧ emptiedBuiltIdx.is_built = true :=
  ⟨rfl, rfl, rfl⟩

/-- C8 (amended): `build()` on a store with zero live records raises the
empty-store `ValueError` before any mutation, leaving the whole index state —
in particular the `built` flag — unchanged; an index that has never built
successfully therefore stays unbuilt. -/
theorem C8_empty_store_build_fails {μ : Type} (rk : List Vec → List Vec × List Nat)
    (idx : IVFIndex μ) (h : idx.storage.vectors = []) :
    idx.buildRun rk = (idx, some "Storage is empty, cannot build index") := by
  have hga : idx.storage.get_all = some [] := by
    unfold VectorStorage.get_all
    rw [h]
    rfl
  unfold IVFIndex.buildRun IVFIndex.build
  rw [hga]
  rfl

/-- C8 amended-claim witness: a fresh (never-built) index over an empty store;
the failed build leaves `built` false. -/
theorem C8_empty_store_build_fails_witness :
    (IVFIndex.create (VectorStorage.create Nat 3) 10 Metric.cosine).storage.vectors = []
      ∧ (IVFIndex.create (VectorStorage.create Nat 3) 10 Metric.cosine).buildRun stubK
          = (IVFIndex.create (VectorStorage.create Nat 3) 10 Metric.cosine,
             some "Storage is empty, cannot build index")
      ∧ (IVFIndex.create (VectorStorage.create Nat 3) 10 Metric.cosine).is_built = false :=
  ⟨rfl, C8_empty_store_build_fails stubK (IVFIndex.create (VectorStorage.create Nat 3) 10 Metric.cosine) rfl,
    rfl⟩

/-- C1: evaluating `add_vectors_bulk` on a concrete index (store holding vector
`[1]` under id 0) with the new vector `[2]` and metadata `8`. The call returns
`ok`, but the value returned in place of the id list is the zipped
(vector, metadata) pair list, and the store afterwards is exactly the store
before: `storage.add` was never called, so the new vector is in neither the
store nor the rebuilt index. -/
theorem C1_bulk_add_never_calls_add :
    ((IVFIndex.create oneVecStore 10 Metric.cosine).add_vectors_bulk stubK [[2]] [8]).map
        (fun r => (r.1, r.2.storage))
      = .ok ([([2], (8 : Nat))], oneVecStore) := rfl

/-! ## Inversion of a successful build -/

theorem build_index_some_inv {μ : Type} {rk : List Vec → List Vec × List Nat}
    {vs : VectorStorage μ} {il : List (Nat × List Nat)} {asg : List (Nat × Nat)}
    {cen : List Vec} (h : build_index rk vs = some (il, asg, cen)) :
    ∃ all, vs.get_all = some all ∧ all.isEmpty = false ∧
      il = ((all.map Prod.fst).zip (rk (all.map (fun t => t.2.1))).2).foldl
            (fun m p => appendAt m p.2 p.1) [] ∧
      asg = ((all.map Prod.fst).zip (rk (all.map (fun t => t.2.1))).2).foldl
            (fun m p => setKey m p.1 p.2) [] ∧
      cen = (rk (all.map (fun t => t.2.1))).1 := by
  unfold build_index at h
  split at h
  · cases h
  · rename_i all hga
    split at h
    · cases h
    · rename_i hne
      simp only [Option.some.injEq, Prod.mk.injEq] at h
      exact ⟨all, hga, by simpa using hne, h.1.symm, h.2.1.symm, h.2.2.symm⟩

theorem build_ok_inv {μ : Type} {rk : List Vec → List Vec × List Nat}
    {idx idx' : IVFIndex μ} (hb : idx.build rk = .ok idx') :
    ∃ all, idx.storage.get_all = some all ∧ all.isEmpty = false ∧
      ∃ il asg cen, build_index rk idx.storage = some (il, asg, cen) ∧
        il.isEmpty = false ∧
        idx' = { idx with inverted_lists := il, assignments := asg,
                          centroids := cen, is_built := true } := by
  unfold IVFIndex.build at hb
  split at hb
  · cases hb
  · rename_i all hga
    split at hb
    · cases hb
    · rename_i hne
      split at hb
      · cases hb
      · rename_i il asg cen hbi
        split at hb
        · cases hb
        · rename_i hil
          refine ⟨all, hga, by simpa using hne, il, asg, cen, hbi,
            by simpa using hil, ?_⟩
          cases hb
          rfl

theorem count_zero_sizes {il : List (Nat × List Nat)} (h : ∀ p ∈ il, p.2 ≠ []) :
    (il.map (fun p => p.2.length)).count 0 = 0 := by
  rw [List.count_eq_zero]
  intro hmem
  rcases List.mem_map.mp hmem with ⟨p, hp, hlen⟩
  exact h p hp (List.length_eq_zero.mp hlen)

/-- C10: immediately after any successful `build()` (the model's `inverted_lists`
is exactly what build installs, i.e. before any search), `get_stats` reports
`empty_clusters = 0` and `n_clusters` equal to the number of centroids — even
when the collaborator assigned no vectors to some cluster, because only
clusters that received at least one id appear in the inverted-lists map. -/
theorem C10_no_empty_clusters_after_build {μ : Type}
    (rk : List Vec → List Vec × List Nat) (idx idx' : IVFIndex μ)
    (hb : idx.build rk = .ok idx') :
    ∃ st, idx'.get_stats = some st ∧ st.empty_clusters = 0
      ∧ st.n_clusters = idx'.centroids.length := by
  obtain ⟨all, hga, hne, il, asg, cen, hbi, hil, rfl⟩ := build_ok_inv hb
  obtain ⟨all', hga', hne', hil_eq, hasg_eq, hcen_eq⟩ := build_index_some_inv hbi
  have hvals : ∀ p ∈ il, p.2 ≠ [] := by
    rw [hil_eq]
    exact values_foldl_appendAt_ne_nil _ [] (by intro p hp; cases hp)
  exact ⟨_, rfl, count_zero_sizes hvals, rfl⟩

/-- A collaborator stub that lumps every vector into cluster 0 while returning
two centroids, leaving cluster 1 with no vectors. -/
def lumpK : List Vec → List Vec × List Nat :=
  fun data => ([[1], [2]], data.map (fun _ => 0))

/-- C10 witness: building over the one-vector store with a collaborator that
returns two centroids but assigns everything to cluster 0 still reports
`empty_clusters = 0` and `n_clusters = 2`. -/
theorem C10_no_empty_clusters_after_build_witness :
    (IVFIndex.create oneVecStore 10 Metric.cosine).build lumpK = .ok
        { IVFIndex.create oneVecStore 10 Metric.cosine with
          inverted_lists := [(0, [0])], assignments := [(0, 0)],
          centroids := [[1], [2]], is_built := true }
      ∧ ∃ st,
        ({ IVFIndex.create oneVecStore 10 Metric.cosine with
           inverted_lists := [(0, [0])], assignments := [(0, 0)],
           centroids := [[1], [2]], is_built := true } : IVFIndex Nat).get_stats = some st
          ∧ st.empty_clusters = 0
          ∧ st.n_clusters = ({ IVFIndex.create oneVecStore 10 Metric.cosine with
              inverted_lists := [(0, [0])], assignments := [(0, 0)],
              centroids := [[1], [2]], is_built := true } : IVFIndex Nat).centroids.length :=
  ⟨rfl, C10_no_empty_clusters_after_build lumpK (IVFIndex.create oneVecStore 10 Metric.cosine) _ rfl⟩

/-- C5: after a successful `build()` (collaborator honouring its contract,
store keys distinct as every reachable store's are), the multiset of ids across
all inverted lists is exactly the id set of the snapshot — every snapshot id in
exactly one list — and the assignment map sends an id to `c` precisely when
`c`'s inverted list contains it. -/
theorem C5_partition_invariant {μ : Type} (rk : List Vec → List Vec × List Nat)
    (hc : KMeansContract rk) (idx idx' : IVFIndex μ)
    (hnd : (idx.storage.vectors.map Prod.fst).Nodup)
    (hb : idx.build rk = .ok idx') :
    (flatUnion idx'.inverted_lists).Perm (idx.storage.vectors.map Prod.fst)
    ∧ (∀ id c, List.lookup id idx'.assignments = some c
          ↔ id ∈ getList idx'.inverted_lists c) := by
  obtain ⟨all, hga, hne, il, asg, cen, hbi, hil, rfl⟩ := build_ok_inv hb
  obtain ⟨all', hga', hne', hil_eq, hasg_eq, hcen_eq⟩ := build_index_some_inv hbi
  rw [hga] at hga'
  cases hga'
  have hids : all.map Prod.fst = idx.storage.vectors.map Prod.fst := get_all_ids hga
  have hlenv : (all.map (fun t => t.2.1)).length = (all.map Prod.fst).length := by
    simp
  have hlen : (rk (all.map (fun t => t.2.1))).2.length = (all.map Prod.fst).length := by
    rw [(hc (all.map (fun t => t.2.1))).1, hlenv]
  have hmapfst : ((all.map Prod.fst).zip (rk (all.map (fun t => t.2.1))).2).map Prod.fst
      = all.map Prod.fst :=
    List.map_fst_zip _ _ (by omega)
  have hidnd : (all.map Prod.fst).Nodup := by rw [hids]; exact hnd
  constructor
  · show (flatUnion il).Perm _
    rw [hil_eq]
    refine (flatUnion_foldl_appendAt _ []).trans ?_
    rw [hmapfst, hids]
    exact List.Perm.refl _
  · intro id c
    show List.lookup id asg = some c ↔ id ∈ getList il c
    rw [hasg_eq, hil_eq,
      lookup_foldl_setKey _ _ (by rw [hmapfst]; exact hidnd),
      mem_getList_foldl]
    simp [lookup_nil, getList_nil]

/-- The index obtained by building over the two-record store with the
one-cluster-per-vector stub. -/
def c5BuiltIdx : IVFIndex Nat :=
  match (IVFIndex.create twoRecStore 10 Metric.cosine).build stubK with
  | .ok i => i
  | .error _ => IVFIndex.create twoRecStore 10 Metric.cosine

/-- C5 witness: the partition invariant instantiated at a concrete build. -/
theorem C5_partition_invariant_witness :
    (IVFIndex.create twoRecStore 10 Metric.cosine).build stubK = .ok c5BuiltIdx
      ∧ ((flatUnion c5BuiltIdx.inverted_lists).Perm
            ((IVFIndex.create twoRecStore 10 Metric.cosine).storage.vectors.map Prod.fst)
          ∧ (∀ id c, List.lookup id c5BuiltIdx.assignments = some c
              ↔ id ∈ getList c5BuiltIdx.inverted_lists c)) :=
  ⟨rfl, C5_partition_invariant stubK stubK_contract (IVFIndex.create twoRecStore 10 Metric.cosine)
    c5BuiltIdx (by decide) rfl⟩

/-! ## The search fallback rule -/

theorem pairLe_total : ∀ a b : ℚ × Nat, pairLe a b = true ∨ pairLe b a = true := by
  intro a b
  simp only [pairLe, decide_eq_true_eq]
  rcases lt_trichotomy a.1 b.1 with h | h | h
  · exact Or.inl (Or.inl h)
  · rcases Nat.le_total a.2 b.2 with h2 | h2
    · exact Or.inl (Or.inr ⟨h, h2⟩)
    · exact Or.inr (Or.inr ⟨h.symm, h2⟩)
  · exact Or.inr (Or.inl h)

theorem pairLe_trans : ∀ a b c : ℚ × Nat,
    pairLe a b = true → pairLe b c = true → pairLe a c = true := by
  intro a b c hab hbc
  simp only [pairLe, decide_eq_true_eq] at hab hbc ⊢
  rcases hab with h1 | ⟨h1, h1'⟩ <;> rcases hbc with h2 | ⟨h2, h2'⟩
  · exact Or.inl (lt_trans h1 h2)
  · exact Or.inl (h2 ▸ h1)
  · exact Or.inl (h1 ▸ h2)
  · exact Or.inr ⟨h1.trans h2, Nat.le_trans h1' h2'⟩

theorem fallbackLoop_nil (il : List (Nat × List Nat)) (k : Nat) (acc : List Nat) :
    fallbackLoop il k [] acc = acc := rfl

theorem fallbackLoop_cons (il : List (Nat × List Nat)) (k : Nat) (d : ℚ) (cid : Nat)
    (rest : List (ℚ × Nat)) (acc : List Nat) :
    fallbackLoop il k ((d, cid) :: rest) acc =
      (if (acc ++ getList il cid).length ≥ k * 2 then acc ++ getList il cid
       else fallbackLoop il k rest (acc ++ getList il cid)) := rfl

theorem fallbackLoop_spec (il : List (Nat × List Nat)) (k : Nat) :
    ∀ (rest : List (ℚ × Nat)) (acc : List Nat), acc.length < k * 2 →
      ∃ j, j ≤ rest.length ∧
        fallbackLoop il k rest acc
          = acc ++ ((rest.take j).map (fun p => getList il p.2)).flatten ∧
        (j = rest.length ∨ k * 2 ≤ (fallbackLoop il k rest acc).length) ∧
        (∀ i, i < j →
          (acc ++ ((rest.take i).map (fun p => getList il p.2)).flatten).length < k * 2) := by
  intro rest
  induction rest with
  | nil =>
    intro acc hacc
    exact ⟨0, Nat.le_refl 0, by simp [fallbackLoop_nil], Or.inl rfl, by omega⟩
  | cons p rest ih =>
    obtain ⟨d, cid⟩ := p
    intro acc hacc
    rw [fallbackLoop_cons]
    by_cases hstop : (acc ++ getList il cid).length ≥ k * 2
    · rw [if_pos hstop]
      refine ⟨1, by simp, by simp, Or.inr hstop, ?_⟩
      intro i hi
      interval_cases i
      simpa using hacc
    · rw [if_neg hstop]
      have hlt : (acc ++ getList il cid).length < k * 2 := by omega
      obtain ⟨j', hj'le, heq, hstop', hmin⟩ := ih (acc ++ getList il cid) hlt
      refine ⟨j' + 1, by simpa using Nat.succ_le_succ hj'le, ?_, ?_, ?_⟩
      · rw [heq]
        simp [List.take_succ_cons]
      · rcases hstop' with h | h
        · exact Or.inl (by simp [h])
        · exact Or.inr h
      · intro i hi
        cases i with
        | zero => simpa using hacc
        | succ i' =>
          have hi' : i' < j' := by omega
          have hm := hmin i' hi'
          simpa [List.take_succ_cons, List.append_assoc] using hm

/-- The fallback behaviour of `search`'s candidate computation when the probed
clusters yielded fewer than `k` candidates: some prefix of the remaining
(ascending-by-centroid-distance) clusters is appended, the loop stops exactly
when the count first reaches `2 * k` or the clusters run out, and every proper
prefix consumed stayed below `2 * k`. -/
def FallbackStops (sq : ℚ → ℚ) (idx : IVFIndex μ) (q : Vec) (k : Nat) : Prop :=
  ∃ j, j ≤ ((centroidDistances sq idx q).drop idx.nprobe).length ∧
    searchCandidates sq idx q k
      = initialCandidates idx (centroidDistances sq idx q)
        ++ ((((centroidDistances sq idx q).drop idx.nprobe).take j).map
              (fun p => getList idx.inverted_lists p.2)).flatten ∧
    (j = ((centroidDistances sq idx q).drop idx.nprobe).length
      ∨ k * 2 ≤ (searchCandidates sq idx q k).length) ∧
    (∀ i, i < j →
      (initialCandidates idx (centroidDistances sq idx q)
        ++ ((((centroidDistances sq idx q).drop idx.nprobe).take i).map
              (fun p => getList idx.inverted_lists p.2)).flatten).length < k * 2)

/-- C3: clusters are ranked ascending by centroid distance; when the `nprobe`
nearest clusters already hold at least `k` ids no further cluster is consulted;
otherwise ids are pulled from the remaining clusters in that ascending order,
stopping as soon as the candidate count reaches `2·k` or the clusters are
exhausted. -/
theorem C3_fallback_rule {μ : Type} (sq : ℚ → ℚ) (idx : IVFIndex μ) (q : Vec) (k : Nat)
    (hk : 1 ≤ k) :
    SortedB pairLe (centroidDistances sq idx q)
    ∧ (k ≤ (initialCandidates idx (centroidDistances sq idx q)).length →
        searchCandidates sq idx q k = initialCandidates idx (centroidDistances sq idx q))
    ∧ ((initialCandidates idx (centroidDistances sq idx q)).length < k →
        FallbackStops sq idx q k) := by
  refine ⟨sortBy_sorted _ pairLe_total pairLe_trans _, ?_, ?_⟩
  · intro h
    simp only [searchCandidates]
    rw [if_neg (by omega)]
  · intro h
    have hsc : searchCandidates sq idx q k
        = fallbackLoop idx.inverted_lists k
            ((centroidDistances sq idx q).drop idx.nprobe)
            (initialCandidates idx (centroidDistances sq idx q)) := by
      simp only [searchCandidates]
      rw [if_pos h]
    have hacc : (initialCandidates idx (centroidDistances sq idx q)).length < k * 2 := by
      omega
    obtain ⟨j, hj, heq, hstop, hmin⟩ :=
      fallbackLoop_spec idx.inverted_lists k
        ((centroidDistances sq idx q).drop idx.nprobe)
        (initialCandidates idx (centroidDistances sq idx q)) hacc
    refine ⟨j, hj, by rw [hsc]; exact heq, ?_, hmin⟩
    rcases hstop with h' | h'
    · exact Or.inl h'
    · exact Or.inr (by rw [hsc]; exact h')

/-- The index over the two-record store built with `nprobe = 1` and one cluster
per vector, so that a `k = 2` search must fall back past the single probed
cluster. -/
def c3Idx : IVFIndex Nat :=
  match (IVFIndex.create twoRecStore 1 Metric.cosine).build stubK with
  | .ok i => i
  | .error _ => IVFIndex.create twoRecStore 1 Metric.cosine

/-- C3 witness: at the concrete fallback scenario the probed cluster holds one
id, fewer than `k = 2`, and the fallback conclusion holds. -/
theorem C3_fallback_rule_witness :
    (1 ≤ 2 ∧ (initialCandidates c3Idx (centroidDistances (fun x => x) c3Idx [1])).length < 2)
      ∧ FallbackStops (fun x => x) c3Idx [1] 2 := by
  have h01 : pairLe (vers (fun x => x) [1] [1], 0) (vers (fun x => x) [2] [1], 1) = true := by
    simp only [pairLe, decide_eq_true_eq]
    left
    norm_num [vers, dot, versEps, List.zipWith, List.sum_cons, List.sum_nil]
  have hmap : (c3Idx.centroids.enum).map (fun o => (vers (fun x => x) o.2 [1], o.1))
      = [(vers (fun x => x) [1] [1], 0), (vers (fun x => x) [2] [1], 1)] := rfl
  have hcd : centroidDistances (fun x => x) c3Idx [1]
      = [(vers (fun x => x) [1] [1], 0), (vers (fun x => x) [2] [1], 1)] := by
    simp only [centroidDistances, hmap]
    simp [sortBy, insortBy, h01]
  have hinit : initialCandidates c3Idx (centroidDistances (fun x => x) c3Idx [1]) = [0] := by
    rw [hcd]
    rfl
  have hlt : (initialCandidates c3Idx (centroidDistances (fun x => x) c3Idx [1])).length < 2 := by
    rw [hinit]
    decide
  exact ⟨⟨by decide, hlt⟩, (C3_fallback_rule (fun x => x) c3Idx [1] 2 (by decide)).2.2 hlt⟩

/-! ## Claim C4: cosine shortlisting, configured-metric ranking -/

/-- Modelled from the spec: the cosine distance
`1 − (query·centroid) / (‖query‖·‖centroid‖ + ε)` from the query to a centroid,
written query-first exactly as the spec phrases centroid shortlisting. -/
def cosineDistSpec (sq : ℚ → ℚ) (q c : Vec) : ℚ :=
  1 - dot q c / (sq (dot q q) * sq (dot c c) + versEps)

theorem dot_comm (a b : Vec) : dot a b = dot b a := by
  unfold dot
  rw [List.zipWith_comm_of_comm (fun x y => x * y) mul_comm]

theorem vers_eq_cosineDistSpec (sq : ℚ → ℚ) (c q : Vec) :
    vers sq c q = cosineDistSpec sq q c := by
  unfold vers cosineDistSpec
  rw [dot_comm c q, mul_comm (sq (dot c c)) (sq (dot q q))]

/-- C4: centroid shortlisting always computes the spec's cosine distance from
the query to every centroid and is unaffected by the configured metric (so is
the whole candidate computation), while the returned ranking sorts the resolved
candidates by the configured metric, ascending, truncated to `k`. -/
theorem C4_cosine_shortlist_configured_ranking {μ : Type} (sq : ℚ → ℚ)
    (idx : IVFIndex μ) (q : Vec) (k : Nat) (m' : Metric) :
    centroidDistances sq { idx with distance_fn := m' } q = centroidDistances sq idx q
    ∧ searchCandidates sq { idx with distance_fn := m' } q k = searchCandidates sq idx q k
    ∧ centroidDistances sq idx q
        = sortBy pairLe ((idx.centroids.enum).map (fun o => (cosineDistSpec sq q o.2, o.1)))
    ∧ (idx.is_built = true →
        ∀ results, mapOpt idx.storage.get (searchCandidates sq idx q k) = some results →
          idx.search sq q k = .ok ((sortBy (fun a b =>
              decide (func_map sq idx.distance_fn q a.1 ≤ func_map sq idx.distance_fn q b.1))
            results).take k)) := by
  refine ⟨rfl, rfl, ?_, ?_⟩
  · unfold centroidDistances
    congr 1
    apply List.map_congr_left
    intro o _
    rw [vers_eq_cosineDistSpec]
  · intro hb results hres
    unfold IVFIndex.search
    rw [hb, hres]
    rfl

/-- The single-vector index built through the API (one cluster, one record). -/
def builtOneIdx : IVFIndex Nat :=
  match (IVFIndex.create oneVecStore 10 Metric.cosine).build stubK with
  | .ok i => i
  | .error _ => IVFIndex.create oneVecStore 10 Metric.cosine

/-- C4 witness at the built one-record index with metric `euclidean` swapped in. -/
theorem C4_cosine_shortlist_configured_ranking_witness :
    (builtOneIdx.is_built = true
      ∧ mapOpt builtOneIdx.storage.get (searchCandidates (fun x => x) builtOneIdx [1] 1)
          = some [([1], 7)])
    ∧ builtOneIdx.search (fun x => x) [1] 1
        = .ok ((sortBy (fun a b =>
            decide (func_map (fun x => x) builtOneIdx.distance_fn [1] a.1
              ≤ func_map (fun x => x) builtOneIdx.distance_fn [1] b.1))
          [([1], 7)]).take 1) :=
  ⟨⟨rfl, rfl⟩,
    (C4_cosine_shortlist_configured_ranking (fun x => x) builtOneIdx [1] 1
      Metric.euclidean).2.2.2 rfl [([1], 7)] rfl⟩

/-! ## Claim C2: exhaustive equivalence with brute force when nprobe covers all clusters -/

theorem keyLe_total {α : Type} (key : α → ℚ) :
    ∀ a b : α, decide (key a ≤ key b) = true ∨ decide (key b ≤ key a) = true := by
  intro a b
  rcases le_total (key a) (key b) with h | h
  · exact Or.inl (decide_eq_true h)
  · exact Or.inr (decide_eq_true h)

theorem keyLe_trans {α : Type} (key : α → ℚ) :
    ∀ a b c : α, decide (key a ≤ key b) = true → decide (key b ≤ key c) = true →
      decide (key a ≤ key c) = true := by
  intro a b c h1 h2
  exact decide_eq_true (le_trans (of_decide_eq_true h1) (of_decide_eq_true h2))

theorem mapOpt_perm {α β : Type} {f : α → Option β} {l₁ l₂ : List α} (hp : l₁.Perm l₂) :
    ∀ {r₂ : List β}, mapOpt f l₂ = some r₂ →
      ∃ r₁, mapOpt f l₁ = some r₁ ∧ r₁.Perm r₂ := by
  induction hp with
  | nil =>
    intro r₂ h₂
    simp only [mapOpt, Option.some.injEq] at h₂
    exact ⟨r₂, by rw [← h₂]; rfl, List.Perm.refl _⟩
  | @cons x t₁ t₂ hp ih =>
    intro r₂ h₂
    simp only [mapOpt] at h₂ ⊢
    cases hfx : f x with
    | none => rw [hfx] at h₂; cases h₂
    | some y =>
      rw [hfx] at h₂
      cases hrest : mapOpt f t₂ with
      | none => rw [hrest] at h₂; cases h₂
      | some ys =>
        rw [hrest] at h₂
        cases h₂
        obtain ⟨r₁, hr₁, hperm⟩ := ih hrest
        rw [hr₁]
        exact ⟨y :: r₁, rfl, hperm.cons y⟩
  | swap x y t =>
    intro r₂ h₂
    simp only [mapOpt] at h₂ ⊢
    cases hfx : f x with
    | none => rw [hfx] at h₂; cases h₂
    | some a =>
      rw [hfx] at h₂
      cases hfy : f y with
      | none =>
        rw [hfy] at h₂
        cases hrest : mapOpt f t with
        | none => rw [hrest] at h₂; cases h₂
        | some ys => rw [hrest] at h₂; cases h₂
      | some b =>
        rw [hfy] at h₂
        cases hrest : mapOpt f t with
        | none => rw [hrest] at h₂; cases h₂
        | some ys =>
          rw [hrest] at h₂
          cases h₂
          exact ⟨b :: a :: ys, rfl, List.Perm.swap a b ys⟩
  | trans hp₁ hp₂ ih₁ ih₂ =>
    intro r₂ h₂
    obtain ⟨rm, hrm, hpm⟩ := ih₂ h₂
    obtain ⟨r₁, hr₁, hp₁'⟩ := ih₁ hrm
    exact ⟨r₁, hr₁, hp₁'.trans hpm⟩

theorem mapOpt_get_records {α β γ : Type} (f : α → Option γ) (g : α × β → γ) :
    ∀ (all : List (α × β)), (∀ t ∈ all, f t.1 = some (g t)) →
      mapOpt f (all.map Prod.fst) = some (all.map g) := by
  intro all
  induction all with
  | nil => intro _; rfl
  | cons t rest ih =>
    intro h
    simp only [List.map_cons, mapOpt]
    rw [h t (by simp), ih (fun t' ht' => h t' (List.mem_cons_of_mem _ ht'))]

theorem build_ok_fields {μ : Type} {rk : List Vec → List Vec × List Nat}
    {idx idx' : IVFIndex μ} (hb : idx.build rk = .ok idx') :
    idx'.storage = idx.storage ∧ idx'.distance_fn = idx.distance_fn
      ∧ idx'.nprobe = idx.nprobe ∧ idx'.is_built = true := by
  obtain ⟨_, _, _, il, asg, cen, _, _, rfl⟩ := build_ok_inv hb
  exact ⟨rfl, rfl, rfl, rfl⟩

/-- When `nprobe` covers every cluster, the candidate list of `search` is a
permutation of the full snapshot id list. -/
theorem searchCandidates_perm_all_ids {μ : Type} {rk : List Vec → List Vec × List Nat}
    (hc : KMeansContract rk) {idx idx' : IVFIndex μ}
    (hnd : (idx.storage.vectors.map Prod.fst).Nodup)
    (hb : idx.build rk = .ok idx')
    (hnp : idx'.centroids.length ≤ idx'.nprobe)
    (sq : ℚ → ℚ) (q : Vec) (k : Nat) :
    (searchCandidates sq idx' q k).Perm (idx.storage.vectors.map Prod.fst) := by
  obtain ⟨all, hga, hne, il, asg, cen, hbi, hil, rfl⟩ := build_ok_inv hb
  obtain ⟨all', hga', hne', hil_eq, hasg_eq, hcen_eq⟩ := build_index_some_inv hbi
  rw [hga] at hga'
  cases hga'
  have hids : all.map Prod.fst = idx.storage.vectors.map Prod.fst := get_all_ids hga
  have hlenv : (all.map (fun t => t.2.1)).length = (all.map Prod.fst).length := by simp
  have hlenp : (rk (all.map (fun t => t.2.1))).2.length = (all.map Prod.fst).length := by
    rw [(hc (all.map (fun t => t.2.1))).1, hlenv]
  have hmapfst : ((all.map Prod.fst).zip (rk (all.map (fun t => t.2.1))).2).map Prod.fst
      = all.map Prod.fst :=
    List.map_fst_zip _ _ (by omega)
  have hmapsnd : ((all.map Prod.fst).zip (rk (all.map (fun t => t.2.1))).2).map Prod.snd
      = (rk (all.map (fun t => t.2.1))).2 :=
    List.map_snd_zip _ _ (by omega)
  set n := cen.length with hn
  have hcde : centroidDistances sq
      { idx with inverted_lists := il, assignments := asg,
                 centroids := cen, is_built := true } q
      = sortBy pairLe ((cen.enum).map (fun o => (vers sq o.2 q, o.1))) := rfl
  have hcdperm : (centroidDistances sq
      { idx with inverted_lists := il, assignments := asg,
                 centroids := cen, is_built := true } q).Perm
      ((cen.enum).map (fun o => (vers sq o.2 q, o.1))) := by
    rw [hcde]
    exact sortBy_perm _ _
  have hcdlen : (centroidDistances sq
      { idx with inverted_lists := il, assignments := asg,
                 centroids := cen, is_built := true } q).length = n := by
    rw [hcdperm.length_eq]
    simp [List.enum_length]
  have hnp' : n ≤ idx.nprobe := by simpa using hnp
  have htake : (centroidDistances sq
      { idx with inverted_lists := il, assignments := asg,
                 centroids := cen, is_built := true } q).take idx.nprobe
      = centroidDistances sq
          { idx with inverted_lists := il, assignments := asg,
                     centroids := cen, is_built := true } q :=
    List.take_of_length_le (by omega)
  have hdrop : (centroidDistances sq
      { idx with inverted_lists := il, assignments := asg,
                 centroids := cen, is_built := true } q).drop idx.nprobe = [] :=
    List.drop_eq_nil_of_le (by omega)
  have hsnd : ((centroidDistances sq
      { idx with inverted_lists := il, assignments := asg,
                 centroids := cen, is_built := true } q).map Prod.snd).Perm
      (List.range n) := by
    refine (hcdperm.map Prod.snd).trans ?_
    have : ((cen.enum).map (fun o => (vers sq o.2 q, o.1))).map Prod.snd
        = (cen.enum).map Prod.fst := by
      rw [List.map_map]
      rfl
    rw [this, List.enum_map_fst]
  have hkeysnd : ∀ key ∈ il.map Prod.fst, key < n := by
    intro key hkey
    rw [hil_eq] at hkey
    rcases keys_foldl_appendAt_subset _ [] key hkey with h | h
    · cases h
    · rw [hmapsnd] at h
      rw [hn, hcen_eq]
      exact (hc (all.map (fun t => t.2.1))).2 key h
  have hkeynd : (il.map Prod.fst).Nodup := by
    rw [hil_eq]
    exact keys_foldl_appendAt_nodup _ [] (by simp)
  have hinit : (initialCandidates
      { idx with inverted_lists := il, assignments := asg,
                 centroids := cen, is_built := true }
      (centroidDistances sq
        { idx with inverted_lists := il, assignments := asg,
                   centroids := cen, is_built := true } q)).Perm
      (idx.storage.vectors.map Prod.fst) := by
    unfold initialCandidates
    rw [htake]
    have hmm : (centroidDistances sq
        { idx with inverted_lists := il, assignments := asg,
                   centroids := cen, is_built := true } q).map
        (fun o => getList il o.2)
        = ((centroidDistances sq
            { idx with inverted_lists := il, assignments := asg,
                       centroids := cen, is_built := true } q).map Prod.snd).map
            (getList il) := by
      rw [List.map_map]
      rfl
    show ((centroidDistances sq _ q).map (fun o => getList il o.2)).flatten.Perm _
    rw [hmm]
    refine ((hsnd.map (getList il)).flatten).trans ?_
    refine (flatten_range_getList_perm il n hkeynd hkeysnd).trans ?_
    rw [hil_eq]
    refine (flatUnion_foldl_appendAt _ []).trans ?_
    rw [hmapfst, hids]
    exact List.Perm.refl _
  have hsc : searchCandidates sq
      { idx with inverted_lists := il, assignments := asg,
                 centroids := cen, is_built := true } q k
      = initialCandidates
          { idx with inverted_lists := il, assignments := asg,
                     centroids := cen, is_built := true }
          (centroidDistances sq
            { idx with inverted_lists := il, assignments := asg,
                       centroids := cen, is_built := true } q) := by
    simp only [searchCandidates]
    rw [hdrop]
    by_cases h : (initialCandidates
        { idx with inverted_lists := il, assignments := asg,
                   centroids := cen, is_built := true }
        (centroidDistances sq
          { idx with inverted_lists := il, assignments := asg,
                     centroids := cen, is_built := true } q)).length < k
    · rw [if_pos h, fallbackLoop_nil]
    · rw [if_neg h]
  rw [hsc]
  exact hinit

/-- Modelled from the spec: a brute-force scan ranks every stored record by the
configured metric against the query (ascending, stable sort) and returns the
first `k`. -/
def bruteForceTopK (sq : ℚ → ℚ) (idx : IVFIndex μ) (q : Vec) (k : Nat) :
    Option (List (Vec × μ)) :=
  match idx.storage.get_all with
  | none => none
  | some all =>
    some ((sortBy (fun a b =>
        decide (func_map sq idx.distance_fn q a.1 ≤ func_map sq idx.distance_fn q b.1))
      (all.map Prod.snd)).take k)

set_option maxHeartbeats 2000000 in
/-- C2: on a built index whose `nprobe` covers every cluster, and a query whose
distances distinguish the stored records (no ties), `search` returns exactly
the brute-force top-`k` list. -/
theorem C2_exhaustive_equivalence {μ : Type} (sq : ℚ → ℚ)
    (rk : List Vec → List Vec × List Nat) (hc : KMeansContract rk)
    (idx idx' : IVFIndex μ) (q : Vec) (k : Nat) (all : List (Nat × Vec × μ))
    (hnd : (idx.storage.vectors.map Prod.fst).Nodup)
    (hb : idx.build rk = .ok idx')
    (hga : idx.storage.get_all = some all)
    (hnp : idx'.centroids.length ≤ idx'.nprobe)
    (hinj : ∀ t₁ ∈ all, ∀ t₂ ∈ all,
      func_map sq idx'.distance_fn q t₁.2.1 = func_map sq idx'.distance_fn q t₂.2.1 →
        t₁ = t₂) :
    ∃ res, idx'.search sq q k = .ok res ∧ bruteForceTopK sq idx' q k = some res := by
  obtain ⟨hst, hdf, hnpeq, hbuilt⟩ := build_ok_fields hb
  have hperm : (searchCandidates sq idx' q k).Perm (all.map Prod.fst) := by
    refine (searchCandidates_perm_all_ids hc hnd hb hnp sq q k).trans ?_
    rw [← get_all_ids hga]
  have hresall : mapOpt idx'.storage.get (all.map Prod.fst)
      = some (all.map (fun t => (t.2.1, t.2.2))) := by
    rw [hst]
    exact mapOpt_get_records idx.storage.get (fun t => (t.2.1, t.2.2)) all
      (get_of_mem_get_all hga hnd)
  obtain ⟨r₁, hr₁, hr₁perm⟩ := mapOpt_perm hperm hresall
  have hsnd_eq : all.map (fun t : Nat × Vec × μ => (t.2.1, t.2.2)) = all.map Prod.snd := by
    apply List.map_congr_left
    intro t _
    rfl
  have hsearch : idx'.search sq q k = .ok ((sortBy (fun a b =>
      decide (func_map sq idx'.distance_fn q a.1 ≤ func_map sq idx'.distance_fn q b.1))
      r₁).take k) := by
    unfold IVFIndex.search
    rw [hbuilt, hr₁]
    rfl
  have hbrute : bruteForceTopK sq idx' q k = some ((sortBy (fun a b =>
      decide (func_map sq idx'.distance_fn q a.1 ≤ func_map sq idx'.distance_fn q b.1))
      (all.map Prod.snd)).take k) := by
    unfold bruteForceTopK
    rw [hst, hga]
  have hrecperm : r₁.Perm (all.map Prod.snd) := by
    rw [← hsnd_eq]
    exact hr₁perm
  have hanti : ∀ a ∈ sortBy (fun a b =>
        decide (func_map sq idx'.distance_fn q a.1 ≤ func_map sq idx'.distance_fn q b.1)) r₁,
      ∀ b ∈ sortBy (fun a b =>
        decide (func_map sq idx'.distance_fn q a.1 ≤ func_map sq idx'.distance_fn q b.1)) r₁,
      decide (func_map sq idx'.distance_fn q a.1 ≤ func_map sq idx'.distance_fn q b.1) = true →
      decide (func_map sq idx'.distance_fn q b.1 ≤ func_map sq idx'.distance_fn q a.1) = true →
      a = b := by
    intro a ha b hb' hab hba
    have ha' : a ∈ all.map Prod.snd :=
      hrecperm.subset ((sortBy_perm _ r₁).subset ha)
    have hb'' : b ∈ all.map Prod.snd :=
      hrecperm.subset ((sortBy_perm _ r₁).subset hb')
    rcases List.mem_map.mp ha' with ⟨t₁, ht₁, rfl⟩
    rcases List.mem_map.mp hb'' with ⟨t₂, ht₂, rfl⟩
    have hkey : func_map sq idx'.distance_fn q t₁.2.1 = func_map sq idx'.distance_fn q t₂.2.1 :=
      le_antisymm (of_decide_eq_true hab) (of_decide_eq_true hba)
    rw [hinj t₁ ht₁ t₂ ht₂ hkey]
  have hsorteq : sortBy (fun a b =>
      decide (func_map sq idx'.distance_fn q a.1 ≤ func_map sq idx'.distance_fn q b.1)) r₁
      = sortBy (fun a b =>
      decide (func_map sq idx'.distance_fn q a.1 ≤ func_map sq idx'.distance_fn q b.1))
      (all.map Prod.snd) := by
    refine sorted_perm_eq _ ?_ ?_ ?_ hanti
    · exact ((sortBy_perm _ r₁).trans hrecperm).trans (sortBy_perm _ (all.map Prod.snd)).symm
    · exact sortBy_sorted _
        (keyLe_total (fun r : Vec × μ => func_map sq idx'.distance_fn q r.1))
        (keyLe_trans (fun r : Vec × μ => func_map sq idx'.distance_fn q r.1)) r₁
    · exact sortBy_sorted _
        (keyLe_total (fun r : Vec × μ => func_map sq idx'.distance_fn q r.1))
        (keyLe_trans (fun r : Vec × μ => func_map sq idx'.distance_fn q r.1))
        (all.map Prod.snd)
  refine ⟨_, hsearch, ?_⟩
  rw [hbrute, hsorteq]

/-- C2 witness: the fully-probed two-record index and a query separating the
two stored vectors. -/
theorem C2_exhaustive_equivalence_witness :
    ((IVFIndex.create twoRecStore 10 Metric.cosine).build stubK = .ok c5BuiltIdx
      ∧ c5BuiltIdx.centroids.length ≤ c5BuiltIdx.nprobe)
    ∧ ∃ res, c5BuiltIdx.search (fun x => x) [1] 1 = .ok res
        ∧ bruteForceTopK (fun x => x) c5BuiltIdx [1] 1 = some res := by
  have hne : vers (fun x => x) [1] ([1] : Vec) ≠ vers (fun x => x) [1] ([2] : Vec) := by
    norm_num [vers, dot, versEps, List.zipWith, List.sum_cons, List.sum_nil]
  refine ⟨⟨rfl, by decide⟩, ?_⟩
  refine C2_exhaustive_equivalence (fun x => x) stubK stubK_contract
    (IVFIndex.create twoRecStore 10 Metric.cosine) c5BuiltIdx [1] 1 [(0, [1], 5), (1, [2], 6)]
    (by decide) rfl rfl (by decide) ?_
  intro t₁ ht₁ t₂ ht₂ h
  have hdf : c5BuiltIdx.distance_fn = Metric.cosine := rfl
  rw [hdf] at h
  simp only [func_map] at h
  rcases List.mem_cons.mp ht₁ with rfl | ht₁'
  · rcases List.mem_cons.mp ht₂ with rfl | ht₂'
    · rfl
    · rcases List.mem_singleton.mp ht₂' with rfl
      exact absurd h hne
  · rcases List.mem_singleton.mp ht₁' with rfl
    rcases List.mem_cons.mp ht₂ with rfl | ht₂'
    · exact absurd h.symm hne
    · rcases List.mem_singleton.mp ht₂' with rfl
      rfl

end MiniVecDB
